import Mathlib

/-!
Verification of the `git_apply_lexer` patch tool: a shallow embedding of its
lexer, parser, applier and orchestrator, with theorems checking the
specification's claims about them.

Machine strings are modelled as Lean `String` (a wrapper around `List Char`);
`u32`/`usize` values are modelled as `Nat` (the decimal/octal parsers reject
values that would overflow `u32`, so parsed numbers never wrap).  The one
place the program performs unbounded `u32` arithmetic — the
`old_lines_count`/`new_lines_count` body counters of `parse_hunk_lines`,
incremented once per token — is modelled with an explicit `% u32Size` wrap.
-/

set_option maxHeartbeats 1000000

deriving instance DecidableEq for Except

namespace GitApply

/-- Rust `enum Line<'a>` from parser.rs: a hunk-body line. -/
inductive Line where
  | addition (s : String)
  | deletion (s : String)
  | context (s : String)
  | noNewline
deriving DecidableEq

/-- Rust `struct Hunk<'a>` from parser.rs. -/
structure Hunk where
  old_line : Nat
  old_span : Nat
  new_line : Nat
  new_span : Nat
  lines : List Line
deriving DecidableEq

/-- Rust `struct Patch<'a>` from parser.rs. -/
structure Patch where
  old_file : String
  new_file : String
  hunks : List Hunk
  rename_from : Option String
  rename_to : Option String
  new_mode : Option Nat
  old_mode : Option Nat
  deleted_file_mode : Option Nat
  similarity : Option Nat
  is_binary : Bool
  copy_from : Option String
  copy_to : Option String
  dissimilarity : Option Nat
  index_mode : Option Nat
deriving DecidableEq

/-- Rust `Patch::default()` (derived `Default`): empty strings, empty list,
`None` options, `false` flag. -/
def defaultPatch : Patch :=
  { old_file := "", new_file := "", hunks := [], rename_from := none,
    rename_to := none, new_mode := none, old_mode := none,
    deleted_file_mode := none, similarity := none, is_binary := false,
    copy_from := none, copy_to := none, dissimilarity := none,
    index_mode := none }

/-- Rust `enum Error` from error.rs (the `Io` kind field is folded into the
message, and `Clap` is kept for completeness). -/
inductive Error where
  | clap (msg : String)
  | ioError (msg : String)
  | parse (msg : String)
  | apply (msg : String)
  | unsupported (msg : String)
deriving DecidableEq

/-- Rust `enum Token<'a>` from lexer.rs. -/
inductive Token where
  | fileHeader (old_file new_file : String)
  | index (old_hash new_hash : String) (mode : Option Nat)
  | oldFile (s : String)
  | newFile (s : String)
  | hunkHeader (old_line old_span new_line new_span : Nat)
  | addition (s : String)
  | deletion (s : String)
  | context (s : String)
  | noNewline
  | renameFrom (s : String)
  | renameTo (s : String)
  | similarity (n : Nat)
  | newFileMode (n : Nat)
  | oldFileMode (n : Nat)
  | deletedFileMode (n : Nat)
  | binaryFileDiffer (old_file new_file : String)
  | copyFrom (s : String)
  | copyTo (s : String)
  | dissimilarity (n : Nat)
deriving DecidableEq

/-! ### Inversion (applier.rs, `Patch::invert` / `Hunk::invert`) -/

/-- The per-line swap inside `Hunk::invert`: Addition and Deletion are
exchanged, Context and NoNewline are left as they are. -/
def invertLine : Line → Line
  | .addition s => .deletion s
  | .deletion s => .addition s
  | other => other

/-- Rust `Hunk::invert`: swap `old_line`/`new_line`, `old_span`/`new_span`,
and map `invertLine` over the lines. -/
def Hunk.invert (h : Hunk) : Hunk :=
  { old_line := h.new_line, old_span := h.new_span,
    new_line := h.old_line, new_span := h.old_span,
    lines := h.lines.map invertLine }

/-- Rust `Patch::invert`: swap old/new file, rename pair, copy pair and mode
pair, then (if the post-swap `new_file` is `/dev/null`) overwrite `new_mode`
with `deleted_file_mode`; finally invert each hunk. -/
def Patch.invert (p : Patch) : Patch :=
  let q : Patch :=
    { p with old_file := p.new_file, new_file := p.old_file,
             rename_from := p.rename_to, rename_to := p.rename_from,
             copy_from := p.copy_to, copy_to := p.copy_from,
             old_mode := p.new_mode, new_mode := p.old_mode,
             hunks := p.hunks.map Hunk.invert }
  if q.new_file = "/dev/null" then { q with new_mode := p.deleted_file_mode }
  else q

/-! ### Newline splitting and joining

Rust `source.split('\n')` and `result_lines.join("\n")`, modelled on the
character list underlying a `String`. -/

/-- `str::split('\n')`: always returns at least one (possibly empty) piece;
a trailing newline yields a trailing empty piece. -/
def splitNl : List Char → List (List Char)
  | [] => [[]]
  | c :: cs =>
    if c = '\n' then [] :: splitNl cs
    else ((c :: (splitNl cs).headI) :: (splitNl cs).tail)

/-- `[&str]::join("\n")` on the pieces. -/
def joinNl : List (List Char) → List Char
  | [] => []
  | [l] => l
  | l :: ls => l ++ '\n' :: joinNl ls

/-- `String::ends_with('\n')`. -/
def endsNl (s : String) : Bool := s.data.getLast? == some '\n'

/-! ### The applier (applier.rs, `apply`) -/

/-- The message of the context/deletion mismatch error
(`"Patch mismatch at line {}. Expected: `{}`, Found: `{}`"`). -/
def mismatchMsg (num : Nat) (expected found : String) : String :=
  "Patch mismatch at line " ++ Nat.repr num ++ ". Expected: `" ++ expected
    ++ "`, Found: `" ++ found ++ "`"

/-- The message of the mismatch error when the source is exhausted. -/
def mismatchEofMsg (num : Nat) (expected : String) : String :=
  "Patch mismatch at line " ++ Nat.repr num ++ ". Expected: `" ++ expected
    ++ "`, Found: `<EOF>`"

/-- The message of the error raised by a NoNewline line that is not at end of
file (`"Patch mismatch at line {}. Expected end of file, Found: ``"`). -/
def eofExpectedMsg (num : Nat) : String :=
  "Patch mismatch at line " ++ Nat.repr num ++ ". Expected end of file, Found: ``"

/-- The inner `for line in &hunk.lines` loop of `apply`.  State: the source
pieces not yet consumed, the 1-based source line counter
(`current_source_line_num`), the `in_addition_block` flag and the
`new_file_should_have_no_newline` flag.  Returns the lines pushed onto
`result_lines` by this hunk body, the remaining source pieces, and the
updated counter and no-newline flag. -/
def processLines :
    List Line → List (List Char) → Nat → Bool → Bool →
    Except Error (List (List Char) × List (List Char) × Nat × Bool)
  | [], src, num, _ia, noNl => .ok ([], src, num, noNl)
  | .addition t :: rest, src, num, _ia, _noNl =>
    match processLines rest src num true false with
    | .error e => .error e
    | .ok (out, rem, num', noNl') => .ok (t.data :: out, rem, num', noNl')
  | .context t :: rest, src, num, _ia, _noNl =>
    match src with
    | [] => .error (.apply (mismatchEofMsg num t))
    | x :: xs =>
      if x = t.data then
        match processLines rest xs (num + 1) false false with
        | .error e => .error e
        | .ok (out, rem, num', noNl') => .ok (x :: out, rem, num', noNl')
      else .error (.apply (mismatchMsg num t (String.mk x)))
  | .deletion t :: rest, src, num, _ia, noNl =>
    match src with
    | [] => .error (.apply (mismatchEofMsg num t))
    | x :: xs =>
      if x = t.data then processLines rest xs (num + 1) false noNl
      else .error (.apply (mismatchMsg num t (String.mk x)))
  | .noNewline :: rest, src, num, ia, _noNl =>
    if !ia && !src.isEmpty then .error (.apply (eofExpectedMsg num))
    else processLines rest src num ia true

/-- The `while current_source_line_num < hunk.old_line` seek loop of `apply`:
copy source pieces verbatim until the counter reaches `target`; running out of
source is an error.  Returns the copied pieces, the remaining source and the
updated counter. -/
def seek (target : Nat) :
    List (List Char) → Nat → Except Error (List (List Char) × List (List Char) × Nat)
  | [], num =>
    if num < target then
      .error (.apply ("Unexpected EOF while seeking to line " ++ Nat.repr target))
    else .ok ([], [], num)
  | x :: xs, num =>
    if num < target then
      match seek target xs (num + 1) with
      | .error e => .error e
      | .ok (copied, rem, num') => .ok (x :: copied, rem, num')
    else .ok ([], x :: xs, num)

/-- The `for hunk in &patch.hunks` loop of `apply`: seek, then replay the hunk
body, threading the line counter and the no-newline flag across hunks.
Returns the pieces pushed onto `result_lines` by the loop (the remaining
source, which `apply` appends afterwards with `result_lines.extend`, is
returned separately), plus the final counter and flag. -/
def applyHunksCore :
    List Hunk → List (List Char) → Nat → Bool →
    Except Error (List (List Char) × List (List Char) × Nat × Bool)
  | [], src, num, noNl => .ok ([], src, num, noNl)
  | h :: hs, src, num, noNl =>
    match seek h.old_line src num with
    | .error e => .error e
    | .ok (copied, rem, num') =>
      match processLines h.lines rem num' false noNl with
      | .error e => .error e
      | .ok (out, rem', num'', noNl') =>
        match applyHunksCore hs rem' num'' noNl' with
        | .error e => .error e
        | .ok (outT, rem'', numF, noNlF) =>
          .ok (copied ++ out ++ outT, rem'', numF, noNlF)

/-- Rust `apply` (applier.rs): empty hunk list returns the source unchanged;
otherwise split the source on `'\n'`, replay the hunks, append the leftover
source pieces, join on `'\n'`, and fix the trailing newline (pop one if the
no-newline flag is set, add one if it is not and the non-empty output lacks
one). -/
def apply (patch : Patch) (source : String) : Except Error String :=
  if patch.hunks.isEmpty then .ok source
  else
    match applyHunksCore patch.hunks (splitNl source.data) 1 false with
    | .error e => .error e
    | .ok (out, rem, _num, noNl) =>
      let result_lines := out ++ rem
      if result_lines.isEmpty then .ok ""
      else
        let joined := joinNl result_lines
        if noNl then
          .ok (String.mk (if joined.getLast? = some '\n' then joined.dropLast else joined))
        else if !joined.isEmpty && !(joined.getLast? == some '\n') then
          .ok (String.mk (joined ++ ['\n']))
        else .ok (String.mk joined)

/-! ### String helpers used by the lexer (Rust `str` standard methods) -/

/-- `str::strip_prefix(pat)` on character lists: remove `pre` from the front
of `s` if it is there. -/
def dropLeadChars : List Char → List Char → Option (List Char)
  | [], s => some s
  | _ :: _, [] => none
  | p :: ps, c :: cs => if p = c then dropLeadChars ps cs else none

/-- `str::strip_prefix(pat)` on strings. -/
def dropLead (pre s : String) : Option String :=
  (dropLeadChars pre.data s.data).map String.mk

/-- `str::split_once(sep)` on character lists: split at the first occurrence
of `sep`, or `none` when `sep` does not occur. -/
def splitFirst (sep : List Char) : List Char → Option (List Char × List Char)
  | [] => match dropLeadChars sep [] with
    | some r => some ([], r)
    | none => none
  | c :: cs => match dropLeadChars sep (c :: cs) with
    | some r => some ([], r)
    | none => (splitFirst sep cs).map (fun pr => (c :: pr.1, pr.2))

/-- Whitespace as recognised by `str::split_whitespace` (the source only ever
meets ASCII whitespace). -/
def isWsChar (c : Char) : Bool := c == ' ' || c == '\t' || c == '\r' || c == '\n'

/-- `str::split_whitespace`: maximal non-whitespace runs, empties dropped. -/
def splitWsAux : List Char → List Char → List String
  | acc, [] => if acc.isEmpty then [] else [String.mk acc.reverse]
  | acc, c :: cs =>
    if isWsChar c then
      if acc.isEmpty then splitWsAux [] cs
      else String.mk acc.reverse :: splitWsAux [] cs
    else splitWsAux (c :: acc) cs

/-- `str::split_whitespace` on a string. -/
def splitWs (s : String) : List String := splitWsAux [] s.data

/-- Decimal digit test for `u32::from_str`. -/
def isDecDigit (c : Char) : Bool := '0' ≤ c && c ≤ '9'

/-- Octal digit test for `u32::from_str_radix(s, 8)`. -/
def isOctDigit (c : Char) : Bool := '0' ≤ c && c ≤ '7'

/-- Accumulate digits in the given base. -/
def natOfDigits (base : Nat) (ds : List Char) : Nat :=
  ds.foldl (fun a c => a * base + (c.toNat - 48)) 0

/-- Rust `str::parse::<u32>()`: an optional leading `+`, then decimal digits;
the error strings are those of `core::num::ParseIntError`. -/
def parseU32 (s : String) : Except String Nat :=
  match s.data with
  | [] => .error "cannot parse integer from empty string"
  | cs =>
    let ds := match cs with
      | '+' :: rest => rest
      | _ => cs
    if ds.isEmpty || !ds.all isDecDigit then .error "invalid digit found in string"
    else
      let n := natOfDigits 10 ds
      if n < 2 ^ 32 then .ok n else .error "number too large to fit in target type"

/-- Rust `u32::from_str_radix(s, 8)`. -/
def parseOct (s : String) : Except String Nat :=
  match s.data with
  | [] => .error "cannot parse integer from empty string"
  | cs =>
    let ds := match cs with
      | '+' :: rest => rest
      | _ => cs
    if ds.isEmpty || !ds.all isOctDigit then .error "invalid digit found in string"
    else
      let n := natOfDigits 8 ds
      if n < 2 ^ 32 then .ok n else .error "number too large to fit in target type"

/-- `str::strip_suffix('%')`. -/
def dropTailPct (s : String) : Option String :=
  if s.data.getLast? = some '%' then some (String.mk s.data.dropLast) else none

/-- `str::strip_suffix(pat)` for a string pattern. -/
def dropTail (suf s : String) : Option String :=
  (dropLeadChars suf.data.reverse s.data.reverse).map (fun r => String.mk r.reverse)

/-! ### The lexer (lexer.rs) -/

/-- Rust `Lexer::strip_git_prefix`: accept `a/...`, `b/...` or exactly
`/dev/null`, else a malformed-path parse error. -/
def stripGit (s : String) : Except Error String :=
  match dropLead "a/" s with
  | some r => .ok r
  | none =>
    match dropLead "b/" s with
    | some r => .ok r
    | none =>
      if s = "/dev/null" then .ok s
      else .error (.parse ("Malformed file path: `" ++ s ++ "`"))

/-- Rust `Lexer::parse_octal_mode`. -/
def parseOctalMode (s : String) : Except Error Nat :=
  match parseOct s with
  | .error e => .error (.parse ("Invalid file mode: " ++ e))
  | .ok n => .ok n

/-- Rust `Lexer::parse_percentage`. -/
def parsePercentage (s : String) (errorMsg : String) : Except Error Nat :=
  match dropTailPct s with
  | none => .error (.parse (errorMsg ++ ": Missing percentage sign"))
  | some r =>
    match parseU32 r with
    | .error e => .error (.parse (errorMsg ++ ": " ++ e))
    | .ok n => .ok n

/-- Rust `Lexer::parse_index_line`: first whitespace piece is the `..`-joined
hash pair, an optional second piece is an octal mode. -/
def parseIndexLine (rest : String) : Except Error Token :=
  match splitWs rest with
  | [] => .error (.parse "Invalid index line")
  | hashes :: parts =>
    match splitFirst "..".data hashes.data with
    | none => .error (.parse "Invalid index hash range")
    | some (oldH, newH) =>
      match parts with
      | [] => .ok (.index (String.mk oldH) (String.mk newH) none)
      | m :: _ =>
        match parseOctalMode m with
        | .error e => .error e
        | .ok mode => .ok (.index (String.mk oldH) (String.mk newH) (some mode))

/-- Rust `Lexer::parse_range`: `line[,span]`, a missing `,span` means span 1. -/
def parseRange (rangeStr : String) : Except Error (Nat × Nat) :=
  let pieces := match splitFirst ",".data rangeStr.data with
    | some (l, r) => (String.mk l, String.mk r)
    | none => (rangeStr, "1")
  match parseU32 pieces.1 with
  | .error e =>
    .error (.parse ("Invalid hunk range line: `" ++ rangeStr ++ "` - " ++ e))
  | .ok line =>
    match parseU32 pieces.2 with
    | .error e =>
      .error (.parse ("Invalid hunk range span: `" ++ rangeStr ++ "` - " ++ e))
    | .ok span => .ok (line, span)

/-- Rust `Lexer::parse_hunk_header`, applied to the text after `@@ `: take the
content before the first ` @@`, split on whitespace, strip `-`/`+` from the
two ranges and parse them.  (`split(" @@").next()` on a `str` is never
`None`, so the corresponding `ok_or` error branch is dead and not modelled.) -/
def parseHunkHeaderTok (header : String) : Except Error Token :=
  let content := match splitFirst " @@".data header.data with
    | some (l, _) => String.mk l
    | none => header
  match splitWs content with
  | [] => .error (.parse "Missing old range in hunk header")
  | p0 :: parts =>
    match dropLead "-" p0 with
    | none => .error (.parse "Missing old range in hunk header")
    | some oldRange =>
      match parts with
      | [] => .error (.parse "Missing new range in hunk header")
      | p1 :: _ =>
        match dropLead "+" p1 with
        | none => .error (.parse "Missing new range in hunk header")
        | some newRange =>
          match parseRange oldRange with
          | .error e => .error e
          | .ok (ol, os) =>
            match parseRange newRange with
            | .error e => .error e
            | .ok (nl, ns) => .ok (.hunkHeader ol os nl ns)

/-- Rust `Lexer::next_token`'s classification ladder, applied to one line
(the caller guarantees the line was taken from the input).  The branches
appear in exactly the order of the source. -/
def classifyLine (line_content : String) : Except Error Token :=
  match dropLead "diff --git " line_content with
  | some rest =>
    match splitWs rest with
    | old_file_raw :: new_file_raw :: _ =>
      match stripGit old_file_raw with
      | .error e => .error e
      | .ok old_file =>
        match stripGit new_file_raw with
        | .error e => .error e
        | .ok new_file => .ok (.fileHeader old_file new_file)
    | _ => .error (.parse "Invalid file header")
  | none =>
  match dropLead "deleted file mode " line_content with
  | some rest =>
    match parseOctalMode rest with
    | .error e => .error e
    | .ok mode => .ok (.deletedFileMode mode)
  | none =>
  match dropLead "dissimilarity index " line_content with
  | some rest =>
    match parsePercentage rest "Invalid dissimilarity" with
    | .error e => .error e
    | .ok percent => .ok (.dissimilarity percent)
  | none =>
  match dropLead "index " line_content with
  | some rest => parseIndexLine rest
  | none =>
  match dropLead "--- " line_content with
  | some stripped =>
    match stripGit stripped with
    | .error e => .error e
    | .ok f => .ok (.oldFile f)
  | none =>
  match dropLead "+++ " line_content with
  | some stripped =>
    match stripGit stripped with
    | .error e => .error e
    | .ok f => .ok (.newFile f)
  | none =>
  match dropLead "-" line_content with
  | some stripped => .ok (.deletion stripped)
  | none =>
  match dropLead "+" line_content with
  | some stripped => .ok (.addition stripped)
  | none =>
  match dropLead "@@ " line_content with
  | some hunk_header => parseHunkHeaderTok hunk_header
  | none =>
  if line_content.data.head? = some '@' then
    .error (.parse ("Unexpected line: `" ++ line_content ++ "`"))
  else if line_content.data.head? = some ' ' then
    .ok (.context line_content)
  else if line_content = "\\ No newline at end of file" then
    .ok .noNewline
  else
  match dropLead "rename from " line_content with
  | some rest => .ok (.renameFrom rest)
  | none =>
  match dropLead "rename to " line_content with
  | some rest => .ok (.renameTo rest)
  | none =>
  match dropLead "similarity index " line_content with
  | some rest =>
    match parsePercentage rest "Invalid similarity" with
    | .error e => .error e
    | .ok percent => .ok (.similarity percent)
  | none =>
  match (dropLead "new file mode " line_content).orElse
      (fun _ => dropLead "new mode " line_content) with
  | some rest =>
    match parseOctalMode rest with
    | .error e => .error e
    | .ok mode => .ok (.newFileMode mode)
  | none =>
  match dropLead "old mode " line_content with
  | some rest =>
    match parseOctalMode rest with
    | .error e => .error e
    | .ok mode => .ok (.oldFileMode mode)
  | none =>
  match dropLead "Binary files " line_content with
  | some rest =>
    match splitFirst " and ".data rest.data with
    | none => .error (.parse "Invalid binary files line")
    | some (old_file, rest2) =>
      match dropTail " differ" (String.mk rest2) with
      | none => .error (.parse "Invalid binary files line")
      | some new_file => .ok (.binaryFileDiffer (String.mk old_file) new_file)
  | none =>
  match dropLead "copy from " line_content with
  | some rest => .ok (.copyFrom rest)
  | none =>
  match dropLead "copy to " line_content with
  | some rest => .ok (.copyTo rest)
  | none =>
  if line_content = "" then .ok (.context "")
  else .error (.parse ("Unexpected line: `" ++ line_content ++ "`"))

/-- Rust `str::lines()`: split on `'\n'`, drop a final empty piece (i.e. the
final line terminator is optional), and strip a `'\r'` left at the end of a
piece that was terminated by `'\n'` (the unterminated final line keeps any
trailing `'\r'`). -/
def rustLinesAux : List (List Char) → List (List Char)
  | [] => []
  | [l] => if l.isEmpty then [] else [l]
  | l :: ls =>
    (if l.getLast? = some '\r' then l.dropLast else l) :: rustLinesAux ls

/-- Rust `str::lines()` on a string. -/
def rustLines (s : String) : List String :=
  (rustLinesAux (splitNl s.data)).map String.mk

/-- Rust `impl Iterator for Lexer`::`next` composed to exhaustion: `next`
first skips every empty line it is facing, then classifies one line; running
that to the end of the input yields this token list.  (Skipping the empty
lines one run at a time before each token is the same as skipping every empty
line, which is how it is written here to keep the recursion structural.) -/
def tokenizeLines : List String → List (Except Error Token)
  | [] => []
  | line :: rest =>
    if line = "" then tokenizeLines rest
    else classifyLine line :: tokenizeLines rest

/-- The full lexer: `Lexer::new(source)` iterated to exhaustion. -/
def tokenize (source : String) : List (Except Error Token) :=
  tokenizeLines (rustLines source)

/-! ### The parser (parser.rs)

The parser holds a `Peekable` lexer; since the lexer is pure and
deterministic, it is modelled as a state-passing machine over the token list
the lexer produces.  Every function returns the remaining token list next to
its result, exactly mirroring where the Rust stream cursor ends up — in
particular, a token that Rust only `peek`s at (such as an `Err` element)
stays at the head of the returned list. -/

/-- The token stream a `Parser` consumes. -/
abbrev TokStream := List (Except Error Token)

/-- One step of the metadata `while let` loop of `parse_patch`: the tokens it
consumes, each updating a `Patch` field; `none` for the kinds it stops at. -/
def metaStep (p : Patch) : Token → Option Patch
  | .renameFrom s => some { p with rename_from := some s }
  | .renameTo s => some { p with rename_to := some s }
  | .newFileMode m => some { p with new_mode := some m }
  | .oldFileMode m => some { p with old_mode := some m }
  | .deletedFileMode m => some { p with deleted_file_mode := some m }
  | .similarity n => some { p with similarity := some n }
  | .binaryFileDiffer _ _ => some { p with is_binary := true }
  | .oldFile f => some { p with old_file := f }
  | .newFile f => some { p with new_file := f }
  | .copyFrom s => some { p with copy_from := some s }
  | .copyTo s => some { p with copy_to := some s }
  | .dissimilarity n => some { p with dissimilarity := some n }
  | .index _ _ m => some { p with index_mode := m }
  | _ => none

/-- The metadata loop of `parse_patch`: consume metadata tokens while the
head of the stream is one (an `Err` head stops the loop without being
consumed, as does any other token kind). -/
def takeMeta (p : Patch) : TokStream → Patch × TokStream
  | [] => (p, [])
  | .error e :: rest => (p, .error e :: rest)
  | .ok t :: rest =>
    match metaStep p t with
    | some p' => takeMeta p' rest
    | none => (p, .ok t :: rest)

/-- The hunk-body token kinds, as collected by `parse_hunk_lines`, together
with their contribution to the old/new line counters. -/
def lineOfToken : Token → Option (Line × Nat × Nat)
  | .addition s => some (.addition s, 0, 1)
  | .deletion s => some (.deletion s, 1, 0)
  | .context s => some (.context s, 1, 1)
  | .noNewline => some (.noNewline, 0, 0)
  | _ => none

/-- `2 ^ 32`, the modulus of `u32` arithmetic. -/
def u32Size : Nat := 2 ^ 32

/-- Rust `Parser::parse_hunk_lines`: collect a run of
Addition/Deletion/Context/NoNewline tokens, counting Deletion+Context on the
old side and Addition+Context on the new side; if the run stops at an `Err`
element of the stream, that error is returned (and the `Err` element is left
unconsumed).  The counters are `u32` (the function's return type is
`Result<(Vec<Line>, u32, u32), Error>`), so each increment wraps modulo
`2 ^ 32`; the accumulated value is the number of increments modulo `2 ^ 32`
however the wraps are interleaved, which the `% u32Size` below captures. -/
def parseHunkLines : TokStream → (Except Error (List Line × Nat × Nat)) × TokStream
  | [] => (.ok ([], 0, 0), [])
  | .error e :: rest => (.error e, .error e :: rest)
  | .ok t :: rest =>
    match lineOfToken t with
    | none => (.ok ([], 0, 0), .ok t :: rest)
    | some (l, oi, ni) =>
      match parseHunkLines rest with
      | (.error e, ts') => (.error e, ts')
      | (.ok (ls, oc, nc), ts') =>
        (.ok (l :: ls, (oc + oi) % u32Size, (nc + ni) % u32Size), ts')

/-- Rust `Parser::parse_hunk`: consume a hunk-header token, collect the body
lines, and reject the hunk when a counted span differs from the declared one
(old side checked first). -/
def parseHunk : TokStream → (Except Error Hunk) × TokStream
  | .ok (.hunkHeader old_line old_span new_line new_span) :: rest =>
    match parseHunkLines rest with
    | (.error e, ts') => (.error e, ts')
    | (.ok (lines, old_lines_count, new_lines_count), ts') =>
      if old_lines_count ≠ old_span then
        (.error (.parse ("Hunk line count mismatch for old file. Expected "
          ++ Nat.repr old_span ++ ", got " ++ Nat.repr old_lines_count)), ts')
      else if new_lines_count ≠ new_span then
        (.error (.parse ("Hunk line count mismatch for new file. Expected "
          ++ Nat.repr new_span ++ ", got " ++ Nat.repr new_lines_count)), ts')
      else
        (.ok { old_line := old_line, old_span := old_span,
               new_line := new_line, new_span := new_span, lines := lines }, ts')
  | ts => (.error (.parse "Expected hunk header"), ts.tail)

/-- The `loop` of `parse_patch` that parses hunk-header-introduced hunks while
the head of the stream is a hunk header.  The loop consumes at least one
token per iteration, so a fuel of the stream length is enough; `parseHunks`
below instantiates it that way. -/
def parseHunksF : Nat → TokStream → (Except Error (List Hunk)) × TokStream
  | 0, ts => (.ok [], ts)
  | fuel + 1, ts =>
    match ts with
    | .ok (.hunkHeader _ _ _ _) :: _ =>
      match parseHunk ts with
      | (.error e, ts') => (.error e, ts')
      | (.ok h, ts') =>
        match parseHunksF fuel ts' with
        | (.error e, ts'') => (.error e, ts'')
        | (.ok hs, ts'') => (.ok (h :: hs), ts'')
    | _ => (.ok [], ts)

/-- The hunks loop of `parse_patch`. -/
def parseHunks (ts : TokStream) : (Except Error (List Hunk)) × TokStream :=
  parseHunksF ts.length ts

/-- The tail of `Parser::parse_patch` after the metadata loop: propagate an
`Err` element the loop stopped at, parse hunk-header-introduced hunks, and
otherwise collect an implicit hunk (which requires file information and
positions its ranges at line 1 when the span is positive, else 0). -/
def parsePatchRest (p1 : Patch) (ts1 : TokStream) : (Except Error Patch) × TokStream :=
  match ts1 with
  | .error e :: rest => (.error e, .error e :: rest)
  | _ =>
    match parseHunks ts1 with
    | (.error e, ts2) => (.error e, ts2)
    | (.ok hunks, ts2) =>
      if hunks.isEmpty then
        match parseHunkLines ts2 with
        | (.error e, ts3) => (.error e, ts3)
        | (.ok (lines, old_span, new_span), ts3) =>
          if lines.isEmpty then (.ok { p1 with hunks := hunks }, ts3)
          else if p1.old_file = "" ∧ p1.new_file = "" then
            (.error (.parse "Patch has hunks but no file information"), ts3)
          else
            (.ok { p1 with hunks :=
              [{ old_line := if old_span > 0 then 1 else 0, old_span := old_span,
                 new_line := if new_span > 0 then 1 else 0, new_span := new_span,
                 lines := lines }] }, ts3)
      else (.ok { p1 with hunks := hunks }, ts2)

/-- Rust `Parser::parse_patch`: optionally consume a leading file header,
consume the metadata run, then hand over to `parsePatchRest`. -/
def parsePatch (ts : TokStream) : (Except Error Patch) × TokStream :=
  let s0 : Patch × TokStream :=
    match ts with
    | .ok (.fileHeader fh_old fh_new) :: rest =>
      ({ defaultPatch with old_file := fh_old, new_file := fh_new }, rest)
    | _ => (defaultPatch, ts)
  let s1 := takeMeta s0.1 s0.2
  parsePatchRest s1.1 s1.2

/-- Rust `impl Iterator for Parser`::`next`: `None` when the stream is
exhausted, else one `parse_patch` attempt from the current stream position. -/
def parserNext (ts : TokStream) : Option ((Except Error Patch) × TokStream) :=
  match ts with
  | [] => none
  | _ => some (parsePatch ts)

/-- The stream state after `n` successful calls of `parserNext`; `none` once
a call has returned `none` (i.e. the iterator has finished). -/
def parserStateN : Nat → TokStream → Option TokStream
  | 0, ts => some ts
  | n + 1, ts =>
    match parserNext ts with
    | none => none
    | some (_, ts') => parserStateN n ts'

/-- The parser iterator on `ts` is a finite sequence: some number of calls of
`next` reaches `None`. -/
def parserFinite (ts : TokStream) : Prop := ∃ n, parserStateN n ts = none

/-- The token stream contains no lexing error. -/
def allOk (ts : TokStream) : Bool :=
  ts.all (fun x => match x with
    | .ok _ => true
    | .error _ => false)

/-! ### The file-system collaborator and the orchestrator (fs.rs, applier.rs `patch`)

The in-memory `MockFileSystem` (path → content map) is the model; every
mutating call (`write`, `remove_file`, `create_dir_all`, `set_permissions`)
is additionally recorded in a call log so that "the orchestrator performed no
such call" is expressible.  `read_to_string` on this file system can only
fail with `NotFound`, which `patch` tolerates as empty content, so source
reading never aborts in the model. -/

/-- A mutating file-system call. -/
inductive FsOp where
  | write (path contents : String)
  | removeFile (path : String)
  | createDirAll (path : String)
  | setPermissions (path : String) (mode : Nat)
deriving DecidableEq

/-- The mock file system plus the log of mutating calls issued so far. -/
structure FS where
  files : List (String × String)
  dirs : List String
  modes : List (String × Nat)
  log : List FsOp
deriving DecidableEq

/-- `MockFileSystem::read_to_string` (as an `Option`: `none` is `NotFound`). -/
def fsRead (fs : FS) (path : String) : Option String :=
  (fs.files.find? (fun pr => pr.1 == path)).map (fun pr => pr.2)

/-- `MockFileSystem::write`: insert or replace, always succeeds. -/
def fsWrite (fs : FS) (path contents : String) : FS :=
  { fs with files := (path, contents) :: fs.files.filter (fun pr => pr.1 ≠ path),
            log := fs.log ++ [.write path contents] }

/-- `MockFileSystem::remove_file`; a missing file is `NotFound`, which every
caller in `patch` tolerates, so the state is simply left unchanged then.  The
call itself is logged either way. -/
def fsRemove (fs : FS) (path : String) : FS :=
  { fs with files := fs.files.filter (fun pr => pr.1 ≠ path),
            log := fs.log ++ [.removeFile path] }

/-- `MockFileSystem::create_dir_all`: record the directory. -/
def fsCreateDirAll (fs : FS) (path : String) : FS :=
  { fs with dirs := fs.dirs ++ [path], log := fs.log ++ [.createDirAll path] }

/-- `MockFileSystem::set_permissions`: insert or replace the mode. -/
def fsSetPermissions (fs : FS) (path : String) (mode : Nat) : FS :=
  { fs with modes := (path, mode) :: fs.modes.filter (fun pr => pr.1 ≠ path),
            log := fs.log ++ [.setPermissions path mode] }

/-- `std::path::Path::parent`, rendered on plain path strings: `none` for
`""` and `"/"`, the text before the last `/` otherwise (`""` when there is no
`/`, `"/"` when the last `/` is the leading one). -/
def pathParent (p : String) : Option String :=
  if p = "" ∨ p = "/" then none
  else
    match splitFirst "/".data p.data.reverse with
    | none => some ""
    | some (_, before) =>
      if before.isEmpty then some "/" else some (String.mk before.reverse)

/-- The source content `patch` reads for one parsed patch: empty for the
`/dev/null` sentinel, else the content at the copy-from path (falling back to
`old_file`), with `NotFound` tolerated as empty content. -/
def sourceContentOf (fs : FS) (p : Patch) : String :=
  if p.old_file = "/dev/null" then ""
  else
    match fsRead fs (p.copy_from.getD p.old_file) with
    | some content => content
    | none => ""

/-- The body of the `for patch_result in Parser::new(..)` loop of `patch`,
for one already-parsed (and already optionally inverted) patch: reject binary
patches, read the source, apply, and only then issue the file-system calls
(delete for `/dev/null`, else create parent dirs, write, set permissions from
new mode falling back to index mode, and delete the rename source when it
differs from the destination). -/
def patchOne (fs : FS) (p : Patch) : FS × Option Error :=
  if p.is_binary then (fs, some (.unsupported "Binary files are not supported"))
  else
    let source_content := sourceContentOf fs p
    match apply p source_content with
    | .error e => (fs, some e)
    | .ok new_content =>
      if p.new_file = "/dev/null" then (fsRemove fs p.old_file, none)
      else
        let fs1 := match pathParent p.new_file with
          | some parent => fsCreateDirAll fs parent
          | none => fs
        let fs2 := fsWrite fs1 p.new_file new_content
        let fs3 := match p.new_mode with
          | some mode => fsSetPermissions fs2 p.new_file mode
          | none =>
            match p.index_mode with
            | some mode => fsSetPermissions fs2 p.new_file mode
            | none => fs2
        let fs4 :=
          if p.rename_from.isSome ∧ p.old_file ≠ p.new_file then
            fsRemove fs3 p.old_file
          else fs3
        (fs4, none)

/-- Rust `patch` (applier.rs), run over the sequence of parse results (the
sequence the parser iterator yields, which `patch` consumes in order,
stopping at the first `Err` via `?`): each patch is optionally inverted and
then handed to `patchOne`; the final file-system state is returned next to
the first error, if any. -/
def processPatches (fs : FS) (results : List (Except Error Patch)) (reverse : Bool) :
    FS × Option Error :=
  match results with
  | [] => (fs, none)
  | .error e :: _ => (fs, some e)
  | .ok p :: rest =>
    let p := if reverse then p.invert else p
    match patchOne fs p with
    | (fs', none) => processPatches fs' rest reverse
    | (fs', some e) => (fs', some e)

/-! ### Predicates used by the claims -/

/-- Count of Deletion and Context lines (the old-side footprint of a body). -/
def delCtxCount : List Line → Nat
  | [] => 0
  | .deletion _ :: rest => delCtxCount rest + 1
  | .context _ :: rest => delCtxCount rest + 1
  | _ :: rest => delCtxCount rest

/-- Count of Addition and Context lines (the new-side output of a body). -/
def addCtxCount : List Line → Nat
  | [] => 0
  | .addition _ :: rest => addCtxCount rest + 1
  | .context _ :: rest => addCtxCount rest + 1
  | _ :: rest => addCtxCount rest

/-- No NoNewline marker among the lines. -/
def noNN : List Line → Bool
  | [] => true
  | .noNewline :: _ => false
  | _ :: rest => noNN rest

/-- Every line text is free of embedded `'\n'` characters. -/
def nlFreeLines : List Line → Bool
  | [] => true
  | .addition t :: rest => !t.data.contains '\n' && nlFreeLines rest
  | .deletion t :: rest => !t.data.contains '\n' && nlFreeLines rest
  | .context t :: rest => !t.data.contains '\n' && nlFreeLines rest
  | .noNewline :: rest => nlFreeLines rest

/-- The hunks are positioned consistently when replayed from forward source
line `num` and output line `numR`: each hunk's forward seek distance equals
the seek distance its inversion will perform on the patched output, and the
rest of the hunks are consistent from the positions both sides then reach. -/
def consistentB : List Hunk → Nat → Nat → Bool
  | [], _, _ => true
  | h :: hs, num, numR =>
    (h.old_line - num == h.new_line - numR) &&
      consistentB hs (max h.old_line num + delCtxCount h.lines)
        (max h.new_line numR + addCtxCount h.lines)

/-- The source line counter `apply` has reached after replaying the hunks
from counter `num` (seeking is a `max`, each Deletion/Context consumes one
source line). -/
def oldReach : List Hunk → Nat → Nat
  | [], num => num
  | h :: hs, num => oldReach hs (max h.old_line num + delCtxCount h.lines)

/-- Keep a Context or NoNewline line, discard the rest: the projection under
which inversion must leave hunk bodies untouched. -/
def keepCtxNN : Line → Option Line
  | .context t => some (.context t)
  | .noNewline => some .noNewline
  | _ => none

/-- The final piece of the pre-join result list is a non-empty line without
an embedded newline. -/
def lastLineSolid (ls : List (List Char)) : Bool :=
  match ls.getLast? with
  | some t => !t.isEmpty && !t.contains '\n'
  | none => false

/-- The run of hunk-body tokens at the front of a token list — what
`parse_hunk_lines` collects. -/
def collectRun : List Token → List Line
  | [] => []
  | t :: rest =>
    match lineOfToken t with
    | some (l, _, _) => l :: collectRun rest
    | none => []

/-! ### Concrete inputs used by counterexamples and witnesses -/

/-- A patch whose single hunk is misaligned: `new_line` is 2 although the
hunk's output lands at line 1 (`apply` never validates `new_line`). -/
def cexMisaligned : Patch :=
  { defaultPatch with hunks := [⟨1, 1, 2, 1, [.deletion "a", .addition "b"]⟩] }

/-- A well-aligned single-hunk patch replacing line 1. -/
def witReplace : Patch :=
  { defaultPatch with hunks := [⟨1, 1, 1, 1, [.deletion "a", .addition "b"]⟩] }

/-- A hunk ending in NoNewline directly after an Addition run. -/
def cexNoNlPatch : Patch :=
  { defaultPatch with hunks := [⟨1, 1, 1, 1, [.deletion "a", .addition "b", .noNewline]⟩] }

/-- The mismatching-context patch of the spec's concrete scenario 4. -/
def mismatchPatch : Patch :=
  { defaultPatch with old_file := "file.txt", new_file := "file.txt",
                      hunks := [⟨1, 1, 1, 1, [.context "expected line"]⟩] }

/-- A patch with two Additions and no NoNewline (spec scenario 3). -/
def addNlPatch : Patch :=
  { defaultPatch with hunks := [⟨1, 1, 1, 2, [.deletion "hello", .addition "hello", .addition "world"]⟩] }

/-- A patch carrying every invertible field, for inversion witnesses. -/
def fullPatch : Patch :=
  { old_file := "old.txt", new_file := "new.txt",
    hunks := [⟨1, 2, 3, 4, [.addition "a", .deletion "d", .context "c", .noNewline]⟩],
    rename_from := some "old.txt", rename_to := some "new.txt",
    new_mode := some 33261, old_mode := some 33188,
    deleted_file_mode := some 33188, similarity := some 80,
    is_binary := false, copy_from := none, copy_to := none,
    dissimilarity := some 10, index_mode := some 33188 }

/-- An empty starting file system for orchestrator witnesses. -/
def emptyFS : FS := { files := [], dirs := [], modes := [], log := [] }

/-- The token stream of the input `"?"`: a single lexing error. -/
def badTok : TokStream := [.error (.parse "Unexpected line: `?`")]

/-! ## Lemmas about newline splitting and joining -/

theorem splitNl_ne_nil (cs : List Char) : splitNl cs ≠ [] := by
  cases cs with
  | nil => simp [splitNl]
  | cons c cs => simp only [splitNl]; split <;> simp

theorem splitNl_cons_of_ne {c : Char} (h : c ≠ '\n') (cs : List Char) :
    splitNl (c :: cs) = (c :: (splitNl cs).headI) :: (splitNl cs).tail := by
  simp [splitNl, h]

theorem splitNl_cons_nl (cs : List Char) :
    splitNl ('\n' :: cs) = [] :: splitNl cs := by
  simp [splitNl]

theorem splitNl_nl_free {cs : List Char} : ∀ l ∈ splitNl cs, '\n' ∉ l := by
  induction cs with
  | nil => intro l hl; simp [splitNl] at hl; simp [hl]
  | cons c cs ih =>
    intro l hl
    by_cases hc : c = '\n'
    · subst hc
      rw [splitNl_cons_nl] at hl
      rcases List.mem_cons.mp hl with hl | hl
      · simp [hl]
      · exact ih l hl
    · rw [splitNl_cons_of_ne hc] at hl
      obtain ⟨l0, ls, hsplit⟩ : ∃ l0 ls, splitNl cs = l0 :: ls := by
        cases h : splitNl cs with
        | nil => exact absurd h (splitNl_ne_nil cs)
        | cons l0 ls => exact ⟨l0, ls, rfl⟩
      rw [hsplit] at hl
      simp only [List.headI, List.tail] at hl
      rcases List.mem_cons.mp hl with hl | hl
      · subst hl
        intro hmem
        rcases List.mem_cons.mp hmem with h1 | h1
        · exact hc h1.symm
        · exact ih l0 (by rw [hsplit]; exact List.mem_cons_self _ _) h1
      · exact ih l (by rw [hsplit]; exact List.mem_cons_of_mem _ hl)

theorem joinNl_splitNl (cs : List Char) : joinNl (splitNl cs) = cs := by
  induction cs with
  | nil => simp [splitNl, joinNl]
  | cons c cs ih =>
    obtain ⟨l0, ls, hsplit⟩ : ∃ l0 ls, splitNl cs = l0 :: ls := by
      cases h : splitNl cs with
      | nil => exact absurd h (splitNl_ne_nil cs)
      | cons l0 ls => exact ⟨l0, ls, rfl⟩
    by_cases hc : c = '\n'
    · subst hc
      rw [splitNl_cons_nl, hsplit]
      rw [hsplit] at ih
      cases ls with
      | nil => simpa [joinNl] using ih
      | cons l1 ls' => simpa [joinNl] using ih
    · rw [splitNl_cons_of_ne hc, hsplit]
      rw [hsplit] at ih
      simp only [List.headI, List.tail]
      cases ls with
      | nil => simpa [joinNl] using congrArg (c :: ·) ih
      | cons l1 ls' =>
        simp only [joinNl] at ih ⊢
        rw [List.cons_append, ih]

theorem splitNl_no_nl {cs : List Char} (h : '\n' ∉ cs) : splitNl cs = [cs] := by
  induction cs with
  | nil => simp [splitNl]
  | cons c cs ih =>
    have hc : c ≠ '\n' := fun hce => h (hce ▸ List.mem_cons_self _ _)
    have hcs : '\n' ∉ cs := fun hm => h (List.mem_cons_of_mem _ hm)
    rw [splitNl_cons_of_ne hc, ih hcs]
    simp [List.headI, List.tail]

theorem splitNl_append_nl_cons {p : List Char} (h : '\n' ∉ p) (rest : List Char) :
    splitNl (p ++ '\n' :: rest) = p :: splitNl rest := by
  induction p with
  | nil => simp [splitNl_cons_nl]
  | cons c p ih =>
    have hc : c ≠ '\n' := fun hce => h (hce ▸ List.mem_cons_self _ _)
    have hp : '\n' ∉ p := fun hm => h (List.mem_cons_of_mem _ hm)
    rw [List.cons_append, splitNl_cons_of_ne hc, ih hp]
    simp [List.headI, List.tail]

theorem splitNl_joinNl {pss : List (List Char)} (hne : pss ≠ [])
    (hfree : ∀ ps ∈ pss, '\n' ∉ ps) : splitNl (joinNl pss) = pss := by
  induction pss with
  | nil => exact absurd rfl hne
  | cons p ps ih =>
    cases ps with
    | nil =>
      simp only [joinNl]
      exact splitNl_no_nl (hfree p (List.mem_cons_self _ _))
    | cons p1 ps' =>
      have hstep : joinNl (p :: p1 :: ps') = p ++ '\n' :: joinNl (p1 :: ps') := rfl
      rw [hstep, splitNl_append_nl_cons (hfree p (List.mem_cons_self _ _))]
      rw [ih (by simp) (fun x hx => hfree x (List.mem_cons_of_mem _ hx))]

theorem splitNl_append_last_nl (cs : List Char) :
    splitNl (cs ++ ['\n']) = splitNl cs ++ [[]] := by
  induction cs with
  | nil => simp [splitNl]
  | cons c cs ih =>
    by_cases hc : c = '\n'
    · subst hc
      rw [List.cons_append, splitNl_cons_nl, splitNl_cons_nl, ih]
      rfl
    · rw [List.cons_append, splitNl_cons_of_ne hc, splitNl_cons_of_ne hc, ih]
      obtain ⟨l0, ls, hsplit⟩ : ∃ l0 ls, splitNl cs = l0 :: ls := by
        cases h : splitNl cs with
        | nil => exact absurd h (splitNl_ne_nil cs)
        | cons l0 ls => exact ⟨l0, ls, rfl⟩
      rw [hsplit]
      simp [List.headI, List.tail]

theorem joinNl_getLast_solid : ∀ {pss : List (List Char)} {t : List Char},
    pss.getLast? = some t → t ≠ [] → (joinNl pss).getLast? = t.getLast?
  | [], t, h, _ => by simp at h
  | [l], t, h, ht => by
    simp only [List.getLast?] at h
    simp only [joinNl]
    cases h; rfl
  | l :: l1 :: ls, t, h, ht => by
    have hrec : (joinNl (l1 :: ls)).getLast? = t.getLast? :=
      joinNl_getLast_solid (by simpa using h) ht
    have hjoin : joinNl (l :: l1 :: ls) = l ++ '\n' :: joinNl (l1 :: ls) := rfl
    rw [hjoin, List.getLast?_append_of_ne_nil _ (by simp)]
    cases hj : joinNl (l1 :: ls) with
    | nil =>
      rw [hj] at hrec
      simp only [List.getLast?] at hrec
      exact absurd (List.getLast?_eq_none_iff.mp hrec.symm) ht
    | cons a as =>
      rw [hj] at hrec
      rw [List.getLast?_cons_cons]
      exact hrec

theorem joinNl_last_nil : ∀ {pss : List (List Char)},
    pss.getLast? = some [] → joinNl pss = [] ∨ (joinNl pss).getLast? = some '\n'
  | [], h => by simp at h
  | [l], h => by
    simp only [List.getLast?] at h
    cases h
    exact Or.inl rfl
  | l :: l1 :: ls, h => by
    have hrec := @joinNl_last_nil (l1 :: ls) (by simpa using h)
    have hjoin : joinNl (l :: l1 :: ls) = l ++ '\n' :: joinNl (l1 :: ls) := rfl
    refine Or.inr ?_
    rw [hjoin, List.getLast?_append_of_ne_nil _ (by simp)]
    rcases hrec with hnil | hlast
    · rw [hnil]; rfl
    · cases hj : joinNl (l1 :: ls) with
      | nil => rfl
      | cons a as =>
        rw [hj] at hlast
        rw [List.getLast?_cons_cons]
        exact hlast

/-! ## Lemmas about `seek` -/

theorem seek_spec : ∀ (src : List (List Char)) (num target : Nat)
    {copied rem : List (List Char)} {num' : Nat},
    seek target src num = .ok (copied, rem, num') →
    src = copied ++ rem ∧ copied.length = target - num ∧ num' = max target num := by
  intro src
  induction src with
  | nil =>
    intro num target copied rem num' h
    simp only [seek] at h
    split at h
    case isTrue hlt => exact absurd h (by simp)
    case isFalse hge =>
      simp only [Except.ok.injEq, Prod.mk.injEq] at h
      obtain ⟨h1, h2, h3⟩ := h
      subst h1; subst h2; subst h3
      refine ⟨rfl, by simp; omega, by omega⟩
  | cons x xs ih =>
    intro num target copied rem num' h
    simp only [seek] at h
    split at h
    case isTrue hlt =>
      cases hrec : seek target xs (num + 1) with
      | error e => rw [hrec] at h; exact absurd h (by simp)
      | ok trip =>
        obtain ⟨copied', rem', num''⟩ := trip
        rw [hrec] at h
        simp only [Except.ok.injEq, Prod.mk.injEq] at h
        obtain ⟨h1, h2, h3⟩ := h
        subst h1; subst h2; subst h3
        obtain ⟨g1, g2, g3⟩ := ih (num + 1) target hrec
        refine ⟨by rw [g1]; rfl, by simp [g2]; omega, by omega⟩
    case isFalse hge =>
      simp only [Except.ok.injEq, Prod.mk.injEq] at h
      obtain ⟨h1, h2, h3⟩ := h
      subst h1; subst h2; subst h3
      refine ⟨rfl, by simp; omega, by omega⟩

theorem seek_exact : ∀ (a b : List (List Char)) (num target : Nat),
    a.length = target - num →
    seek target (a ++ b) num = .ok (a, b, max target num) := by
  intro a
  induction a with
  | nil =>
    intro b num target hlen
    have hge : ¬ num < target := by simp at hlen; omega
    have hmax : max target num = num := by omega
    cases b with
    | nil => simp [seek, hge, hmax]
    | cons x xs => simp [seek, hge, hmax]
  | cons x a ih =>
    intro b num target hlen
    have hlt : num < target := by simp at hlen; omega
    have hmax : max target (num + 1) = max target num := by omega
    simp only [List.cons_append, seek, if_pos hlt, List.append_eq]
    rw [ih b (num + 1) target (by simp at hlen ⊢; omega), hmax]

/-! ## Lemmas about `processLines` -/

theorem processLines_spec : ∀ (ls : List Line) (src : List (List Char)) (num : Nat)
    (ia fl : Bool) {out rem : List (List Char)} {num' : Nat} {fl' : Bool},
    processLines ls src num ia fl = .ok (out, rem, num', fl') →
    ∃ cons, src = cons ++ rem ∧ cons.length = delCtxCount ls ∧
      num' = num + delCtxCount ls ∧ out.length = addCtxCount ls := by
  intro ls
  induction ls with
  | nil =>
    intro src num ia fl out rem num' fl' h
    simp only [processLines, Except.ok.injEq, Prod.mk.injEq] at h
    obtain ⟨h1, h2, h3, h4⟩ := h
    subst h1; subst h2; subst h3
    exact ⟨[], rfl, by simp [delCtxCount], by simp [delCtxCount], by simp [addCtxCount]⟩
  | cons l rest ih =>
    intro src num ia fl out rem num' fl' h
    cases l with
    | addition t =>
      simp only [processLines] at h
      cases hrec : processLines rest src num true false with
      | error e => rw [hrec] at h; exact absurd h (by simp)
      | ok quad =>
        obtain ⟨out1, rem1, n1, f1⟩ := quad
        rw [hrec] at h
        simp only [Except.ok.injEq, Prod.mk.injEq] at h
        obtain ⟨h1, h2, h3, h4⟩ := h
        subst h1; subst h2; subst h3
        obtain ⟨cons, g1, g2, g3, g4⟩ := ih src num true false hrec
        exact ⟨cons, g1, by simpa [delCtxCount] using g2,
          by simpa [delCtxCount] using g3, by simp [addCtxCount, g4]⟩
    | deletion t =>
      simp only [processLines] at h
      cases src with
      | nil => exact absurd h (by simp)
      | cons x xs =>
        simp only at h
        split at h
        case isTrue heq =>
          obtain ⟨cons, g1, g2, g3, g4⟩ := ih xs (num + 1) false fl h
          exact ⟨x :: cons, by rw [g1]; rfl, by simp [delCtxCount, g2],
            by simp [delCtxCount]; omega, by simpa [addCtxCount] using g4⟩
        case isFalse heq => exact absurd h (by simp)
    | context t =>
      simp only [processLines] at h
      cases src with
      | nil => exact absurd h (by simp)
      | cons x xs =>
        simp only at h
        split at h
        case isTrue heq =>
          cases hrec : processLines rest xs (num + 1) false false with
          | error e => rw [hrec] at h; exact absurd h (by simp)
          | ok quad =>
            obtain ⟨out1, rem1, n1, f1⟩ := quad
            rw [hrec] at h
            simp only [Except.ok.injEq, Prod.mk.injEq] at h
            obtain ⟨h1, h2, h3, h4⟩ := h
            subst h1; subst h2; subst h3
            obtain ⟨cons, g1, g2, g3, g4⟩ := ih xs (num + 1) false false hrec
            exact ⟨x :: cons, by rw [g1]; rfl, by simp [delCtxCount, g2],
              by simp [delCtxCount]; omega, by simp [addCtxCount, g4]⟩
        case isFalse heq => exact absurd h (by simp)
    | noNewline =>
      simp only [processLines] at h
      split at h
      · exact absurd h (by simp)
      · obtain ⟨cons, g1, g2, g3, g4⟩ := ih src num ia true h
        exact ⟨cons, g1, by simpa [delCtxCount] using g2,
          by simpa [delCtxCount] using g3, by simpa [addCtxCount] using g4⟩

theorem processLines_mem : ∀ (ls : List Line) (src : List (List Char)) (num : Nat)
    (ia fl : Bool) {out rem : List (List Char)} {num' : Nat} {fl' : Bool},
    processLines ls src num ia fl = .ok (out, rem, num', fl') →
    ∀ x ∈ out, x ∈ src ∨ ∃ t, Line.addition t ∈ ls ∧ x = t.data := by
  intro ls
  induction ls with
  | nil =>
    intro src num ia fl out rem num' fl' h x hx
    simp only [processLines, Except.ok.injEq, Prod.mk.injEq] at h
    obtain ⟨h1, _, _, _⟩ := h
    subst h1
    simp at hx
  | cons l rest ih =>
    intro src num ia fl out rem num' fl' h x hx
    cases l with
    | addition t =>
      simp only [processLines] at h
      cases hrec : processLines rest src num true false with
      | error e => rw [hrec] at h; exact absurd h (by simp)
      | ok quad =>
        obtain ⟨out1, rem1, n1, f1⟩ := quad
        rw [hrec] at h
        simp only [Except.ok.injEq, Prod.mk.injEq] at h
        obtain ⟨h1, _, _, _⟩ := h
        subst h1
        rcases List.mem_cons.mp hx with hx | hx
        · exact Or.inr ⟨t, List.mem_cons_self _ _, hx⟩
        · rcases ih src num true false hrec x hx with hin | ⟨t', ht', hxt⟩
          · exact Or.inl hin
          · exact Or.inr ⟨t', List.mem_cons_of_mem _ ht', hxt⟩
    | deletion t =>
      simp only [processLines] at h
      cases src with
      | nil => exact absurd h (by simp)
      | cons y xs =>
        simp only at h
        split at h
        case isTrue heq =>
          rcases ih xs (num + 1) false fl h x hx with hin | ⟨t', ht', hxt⟩
          · exact Or.inl (List.mem_cons_of_mem _ hin)
          · exact Or.inr ⟨t', List.mem_cons_of_mem _ ht', hxt⟩
        case isFalse heq => exact absurd h (by simp)
    | context t =>
      simp only [processLines] at h
      cases src with
      | nil => exact absurd h (by simp)
      | cons y xs =>
        simp only at h
        split at h
        case isTrue heq =>
          cases hrec : processLines rest xs (num + 1) false false with
          | error e => rw [hrec] at h; exact absurd h (by simp)
          | ok quad =>
            obtain ⟨out1, rem1, n1, f1⟩ := quad
            rw [hrec] at h
            simp only [Except.ok.injEq, Prod.mk.injEq] at h
            obtain ⟨h1, _, _, _⟩ := h
            subst h1
            rcases List.mem_cons.mp hx with hx | hx
            · exact Or.inl (hx ▸ List.mem_cons_self _ _)
            · rcases ih xs (num + 1) false false hrec x hx with hin | ⟨t', ht', hxt⟩
              · exact Or.inl (List.mem_cons_of_mem _ hin)
              · exact Or.inr ⟨t', List.mem_cons_of_mem _ ht', hxt⟩
        case isFalse heq => exact absurd h (by simp)
    | noNewline =>
      simp only [processLines] at h
      split at h
      · exact absurd h (by simp)
      · rcases ih src num ia true h x hx with hin | ⟨t', ht', hxt⟩
        · exact Or.inl hin
        · exact Or.inr ⟨t', List.mem_cons_of_mem _ ht', hxt⟩

theorem processLines_flag : ∀ (ls : List Line) (src : List (List Char)) (num : Nat)
    (ia : Bool) {out rem : List (List Char)} {num' : Nat} {fl' : Bool},
    noNN ls = true →
    processLines ls src num ia false = .ok (out, rem, num', fl') → fl' = false := by
  intro ls
  induction ls with
  | nil =>
    intro src num ia out rem num' fl' _ h
    simp only [processLines, Except.ok.injEq, Prod.mk.injEq] at h
    exact h.2.2.2.symm
  | cons l rest ih =>
    intro src num ia out rem num' fl' hnn h
    cases l with
    | addition t =>
      simp only [processLines] at h
      cases hrec : processLines rest src num true false with
      | error e => rw [hrec] at h; exact absurd h (by simp)
      | ok quad =>
        obtain ⟨out1, rem1, n1, f1⟩ := quad
        rw [hrec] at h
        simp only [Except.ok.injEq, Prod.mk.injEq] at h
        exact h.2.2.2 ▸ ih src num true (by simpa [noNN] using hnn) hrec
    | deletion t =>
      simp only [processLines] at h
      cases src with
      | nil => exact absurd h (by simp)
      | cons x xs =>
        simp only at h
        split at h
        case isTrue heq => exact ih xs (num + 1) false (by simpa [noNN] using hnn) h
        case isFalse heq => exact absurd h (by simp)
    | context t =>
      simp only [processLines] at h
      cases src with
      | nil => exact absurd h (by simp)
      | cons x xs =>
        simp only at h
        split at h
        case isTrue heq =>
          cases hrec : processLines rest xs (num + 1) false false with
          | error e => rw [hrec] at h; exact absurd h (by simp)
          | ok quad =>
            obtain ⟨out1, rem1, n1, f1⟩ := quad
            rw [hrec] at h
            simp only [Except.ok.injEq, Prod.mk.injEq] at h
            exact h.2.2.2 ▸ ih xs (num + 1) false (by simpa [noNN] using hnn) hrec
        case isFalse heq => exact absurd h (by simp)
    | noNewline => simp [noNN] at hnn

theorem processLines_rt : ∀ (ls : List Line) (src : List (List Char)) (num : Nat)
    (ia : Bool) {out rem : List (List Char)} {num' : Nat} {fl' : Bool},
    noNN ls = true →
    processLines ls src num ia false = .ok (out, rem, num', fl') →
    ∃ cons, src = cons ++ rem ∧
      ∀ (tail : List (List Char)) (numR : Nat) (iaR : Bool),
        processLines (ls.map invertLine) (out ++ tail) numR iaR false =
          .ok (cons, tail, numR + out.length, false) := by
  intro ls
  induction ls with
  | nil =>
    intro src num ia out rem num' fl' _ h
    simp only [processLines, Except.ok.injEq, Prod.mk.injEq] at h
    obtain ⟨h1, h2, _, _⟩ := h
    subst h1; subst h2
    exact ⟨[], rfl, fun tail numR iaR => by simp [processLines]⟩
  | cons l rest ih =>
    intro src num ia out rem num' fl' hnn h
    cases l with
    | addition t =>
      simp only [processLines] at h
      cases hrec : processLines rest src num true false with
      | error e => rw [hrec] at h; exact absurd h (by simp)
      | ok quad =>
        obtain ⟨out1, rem1, n1, f1⟩ := quad
        rw [hrec] at h
        simp only [Except.ok.injEq, Prod.mk.injEq] at h
        obtain ⟨h1, h2, h3, h4⟩ := h
        subst h1; subst h2; subst h3
        obtain ⟨cons, hsrc, hrev⟩ := ih src num true (by simpa [noNN] using hnn) hrec
        refine ⟨cons, hsrc, fun tail numR iaR => ?_⟩
        have harith : numR + 1 + out1.length = numR + (out1.length + 1) := by omega
        simp only [List.map_cons, invertLine, List.cons_append, processLines,
          hrev tail (numR + 1) false, List.length_cons, harith]
        simp
    | deletion t =>
      simp only [processLines] at h
      cases src with
      | nil => exact absurd h (by simp)
      | cons x xs =>
        simp only at h
        split at h
        case isTrue heq =>
          obtain ⟨cons, hsrc, hrev⟩ := ih xs (num + 1) false (by simpa [noNN] using hnn) h
          refine ⟨x :: cons, by rw [hsrc]; rfl, fun tail numR iaR => ?_⟩
          simp only [List.map_cons, invertLine, processLines, hrev tail numR true, heq]
        case isFalse heq => exact absurd h (by simp)
    | context t =>
      simp only [processLines] at h
      cases src with
      | nil => exact absurd h (by simp)
      | cons x xs =>
        simp only at h
        split at h
        case isTrue heq =>
          cases hrec : processLines rest xs (num + 1) false false with
          | error e => rw [hrec] at h; exact absurd h (by simp)
          | ok quad =>
            obtain ⟨out1, rem1, n1, f1⟩ := quad
            rw [hrec] at h
            simp only [Except.ok.injEq, Prod.mk.injEq] at h
            obtain ⟨h1, h2, h3, h4⟩ := h
            subst h1; subst h2; subst h3
            obtain ⟨cons, hsrc, hrev⟩ :=
              ih xs (num + 1) false (by simpa [noNN] using hnn) hrec
            refine ⟨x :: cons, by rw [hsrc]; rfl, fun tail numR iaR => ?_⟩
            have harith : numR + 1 + out1.length = numR + (out1.length + 1) := by omega
            simp only [List.map_cons, invertLine, List.cons_append, processLines,
              heq, hrev tail (numR + 1) false, List.length_cons, harith]
            simp
        case isFalse heq => exact absurd h (by simp)
    | noNewline => simp [noNN] at hnn

/-! ## Lemmas about `applyHunksCore` -/

theorem core_spec : ∀ (hs : List Hunk) (src : List (List Char)) (num : Nat) (fl : Bool)
    {out rem : List (List Char)} {num' : Nat} {fl' : Bool},
    applyHunksCore hs src num fl = .ok (out, rem, num', fl') →
    ∃ cons, src = cons ++ rem ∧ num' = oldReach hs num ∧ cons.length + num = num' := by
  intro hs
  induction hs with
  | nil =>
    intro src num fl out rem num' fl' h
    simp only [applyHunksCore, Except.ok.injEq, Prod.mk.injEq] at h
    obtain ⟨h1, h2, h3, _⟩ := h
    subst h1; subst h2; subst h3
    exact ⟨[], rfl, by simp [oldReach], by simp⟩
  | cons hk hs ih =>
    intro src num fl out rem num' fl' h
    simp only [applyHunksCore] at h
    cases hseek : seek hk.old_line src num with
    | error e => rw [hseek] at h; exact absurd h (by simp)
    | ok trip =>
      obtain ⟨copied, rem0, n1⟩ := trip
      rw [hseek] at h; simp only at h
      cases hbody : processLines hk.lines rem0 n1 false fl with
      | error e => rw [hbody] at h; exact absurd h (by simp)
      | ok quad =>
        obtain ⟨out1, rem1, n2, f1⟩ := quad
        rw [hbody] at h; simp only at h
        cases hrest : applyHunksCore hs rem1 n2 f1 with
        | error e => rw [hrest] at h; exact absurd h (by simp)
        | ok quad2 =>
          obtain ⟨outT, remT, nF, fF⟩ := quad2
          rw [hrest] at h; simp only at h
          simp only [Except.ok.injEq, Prod.mk.injEq] at h
          obtain ⟨h1, h2, h3, h4⟩ := h
          subst h1; subst h2; subst h3
          obtain ⟨g1, g2, g3⟩ := seek_spec src num hk.old_line hseek
          obtain ⟨cons1, b1, b2, b3, b4⟩ := processLines_spec hk.lines rem0 n1 false fl hbody
          obtain ⟨cons2, c1, c2, c3⟩ := ih rem1 n2 f1 hrest
          refine ⟨copied ++ cons1 ++ cons2, ?_, ?_, ?_⟩
          · rw [g1, b1, c1]; simp
          · simp only [oldReach]
            rw [c2, b3, g3]
          · simp only [List.length_append]
            omega

theorem core_mem : ∀ (hs : List Hunk) (src : List (List Char)) (num : Nat) (fl : Bool)
    {out rem : List (List Char)} {num' : Nat} {fl' : Bool},
    applyHunksCore hs src num fl = .ok (out, rem, num', fl') →
    ∀ x ∈ out, x ∈ src ∨ ∃ t h, h ∈ hs ∧ Line.addition t ∈ h.lines ∧ x = t.data := by
  intro hs
  induction hs with
  | nil =>
    intro src num fl out rem num' fl' h x hx
    simp only [applyHunksCore, Except.ok.injEq, Prod.mk.injEq] at h
    obtain ⟨h1, _, _, _⟩ := h
    subst h1
    simp at hx
  | cons hk hs ih =>
    intro src num fl out rem num' fl' h x hx
    simp only [applyHunksCore] at h
    cases hseek : seek hk.old_line src num with
    | error e => rw [hseek] at h; exact absurd h (by simp)
    | ok trip =>
      obtain ⟨copied, rem0, n1⟩ := trip
      rw [hseek] at h; simp only at h
      cases hbody : processLines hk.lines rem0 n1 false fl with
      | error e => rw [hbody] at h; exact absurd h (by simp)
      | ok quad =>
        obtain ⟨out1, rem1, n2, f1⟩ := quad
        rw [hbody] at h; simp only at h
        cases hrest : applyHunksCore hs rem1 n2 f1 with
        | error e => rw [hrest] at h; exact absurd h (by simp)
        | ok quad2 =>
          obtain ⟨outT, remT, nF, fF⟩ := quad2
          rw [hrest] at h; simp only at h
          simp only [Except.ok.injEq, Prod.mk.injEq] at h
          obtain ⟨h1, _, _, _⟩ := h
          subst h1
          obtain ⟨g1, _, _⟩ := seek_spec src num hk.old_line hseek
          obtain ⟨cons1, b1, _, _, _⟩ := processLines_spec hk.lines rem0 n1 false fl hbody
          rcases List.mem_append.mp hx with hx | hx
          · rcases List.mem_append.mp hx with hx | hx
            · exact Or.inl (by rw [g1]; exact List.mem_append_left _ hx)
            · rcases processLines_mem hk.lines rem0 n1 false fl hbody x hx with hin | ⟨t, ht, hxt⟩
              · exact Or.inl (by rw [g1]; exact List.mem_append_right _ hin)
              · exact Or.inr ⟨t, hk, List.mem_cons_self _ _, ht, hxt⟩
          · rcases ih rem1 n2 f1 hrest x hx with hin | ⟨t, h', hh', ht, hxt⟩
            · refine Or.inl ?_
              rw [g1, b1]
              exact List.mem_append_right _ (List.mem_append_right _ hin)
            · exact Or.inr ⟨t, h', List.mem_cons_of_mem _ hh', ht, hxt⟩

theorem core_flag : ∀ (hs : List Hunk) (src : List (List Char)) (num : Nat)
    {out rem : List (List Char)} {num' : Nat} {fl' : Bool},
    (∀ h ∈ hs, noNN h.lines = true) →
    applyHunksCore hs src num false = .ok (out, rem, num', fl') → fl' = false := by
  intro hs
  induction hs with
  | nil =>
    intro src num out rem num' fl' _ h
    simp only [applyHunksCore, Except.ok.injEq, Prod.mk.injEq] at h
    exact h.2.2.2.symm
  | cons hk hs ih =>
    intro src num out rem num' fl' hnn h
    simp only [applyHunksCore] at h
    cases hseek : seek hk.old_line src num with
    | error e => rw [hseek] at h; exact absurd h (by simp)
    | ok trip =>
      obtain ⟨copied, rem0, n1⟩ := trip
      rw [hseek] at h; simp only at h
      cases hbody : processLines hk.lines rem0 n1 false false with
      | error e => rw [hbody] at h; exact absurd h (by simp)
      | ok quad =>
        obtain ⟨out1, rem1, n2, f1⟩ := quad
        rw [hbody] at h; simp only at h
        have hf1 : f1 = false :=
          processLines_flag hk.lines rem0 n1 false (hnn hk (List.mem_cons_self _ _)) hbody
        subst hf1
        cases hrest : applyHunksCore hs rem1 n2 false with
        | error e => rw [hrest] at h; exact absurd h (by simp)
        | ok quad2 =>
          obtain ⟨outT, remT, nF, fF⟩ := quad2
          rw [hrest] at h; simp only at h
          simp only [Except.ok.injEq, Prod.mk.injEq] at h
          exact h.2.2.2 ▸ ih rem1 n2 (fun h' hh' => hnn h' (List.mem_cons_of_mem _ hh')) hrest

theorem core_rt : ∀ (hs : List Hunk) (src : List (List Char)) (num numR : Nat)
    {out rem : List (List Char)} {num' : Nat} {fl' : Bool},
    (∀ h ∈ hs, noNN h.lines = true) →
    consistentB hs num numR = true →
    applyHunksCore hs src num false = .ok (out, rem, num', fl') →
    ∃ cons, src = cons ++ rem ∧
      ∀ tail, applyHunksCore (hs.map Hunk.invert) (out ++ tail) numR false =
        .ok (cons, tail, numR + out.length, false) := by
  intro hs
  induction hs with
  | nil =>
    intro src num numR out rem num' fl' _ _ h
    simp only [applyHunksCore, Except.ok.injEq, Prod.mk.injEq] at h
    obtain ⟨h1, h2, _, _⟩ := h
    subst h1; subst h2
    exact ⟨[], rfl, fun tail => by simp [applyHunksCore]⟩
  | cons hk hs ih =>
    intro src num numR out rem num' fl' hnn hcons h
    simp only [applyHunksCore] at h
    cases hseek : seek hk.old_line src num with
    | error e => rw [hseek] at h; exact absurd h (by simp)
    | ok trip =>
      obtain ⟨copied, rem0, n1⟩ := trip
      rw [hseek] at h; simp only at h
      cases hbody : processLines hk.lines rem0 n1 false false with
      | error e => rw [hbody] at h; exact absurd h (by simp)
      | ok quad =>
        obtain ⟨out1, rem1, n2, f1⟩ := quad
        rw [hbody] at h; simp only at h
        have hf1 : f1 = false :=
          processLines_flag hk.lines rem0 n1 false (hnn hk (List.mem_cons_self _ _)) hbody
        subst hf1
        cases hrest : applyHunksCore hs rem1 n2 false with
        | error e => rw [hrest] at h; exact absurd h (by simp)
        | ok quad2 =>
          obtain ⟨outT, remT, nF, fF⟩ := quad2
          rw [hrest] at h; simp only at h
          simp only [Except.ok.injEq, Prod.mk.injEq] at h
          obtain ⟨h1, h2, h3, h4⟩ := h
          subst h1; subst h2; subst h3
          -- facts from the forward pass
          obtain ⟨g1, g2, g3⟩ := seek_spec src num hk.old_line hseek
          obtain ⟨cons1, b1, b2, b3, b4⟩ :=
            processLines_spec hk.lines rem0 n1 false false hbody
          -- consistency of the head hunk and of the tail
          simp only [consistentB, Bool.and_eq_true, beq_iff_eq] at hcons
          obtain ⟨hc1, hc2⟩ := hcons
          -- round-trip the body and the tail
          obtain ⟨consB, hremB, hrevB⟩ :=
            processLines_rt hk.lines rem0 n1 false (hnn hk (List.mem_cons_self _ _)) hbody
          have hn2 : n2 = max hk.old_line num + delCtxCount hk.lines := by rw [b3, g3]
          have ihcons : consistentB hs n2 (max hk.new_line numR + addCtxCount hk.lines) = true := by
            rw [hn2]; exact hc2
          obtain ⟨consT, hremT, hrevT⟩ :=
            ih rem1 n2 (max hk.new_line numR + addCtxCount hk.lines)
              (fun h' hh' => hnn h' (List.mem_cons_of_mem _ hh')) ihcons hrest
          refine ⟨copied ++ consB ++ consT, ?_, fun tail => ?_⟩
          · rw [g1, hremB, hremT]; simp
          · -- the inverted head hunk seeks over exactly `copied`
            have hlen : copied.length = hk.new_line - numR := by rw [g2, hc1]
            simp only [List.map_cons, applyHunksCore, Hunk.invert]
            have hassoc : (copied ++ out1 ++ outT) ++ tail
                = copied ++ (out1 ++ (outT ++ tail)) := by simp
            rw [hassoc, seek_exact copied (out1 ++ (outT ++ tail)) numR hk.new_line hlen]
            simp only
            rw [hrevB (outT ++ tail) (max hk.new_line numR) false]
            simp only
            have hnumB : max hk.new_line numR + out1.length
                = max hk.new_line numR + addCtxCount hk.lines := by rw [b4]
            rw [hnumB, hrevT tail]
            simp only
            have harith : max hk.new_line numR + addCtxCount hk.lines + outT.length
                = numR + (copied ++ out1 ++ outT).length := by
              simp only [List.length_append]
              have : max hk.new_line numR = numR + (hk.new_line - numR) := by omega
              rw [this, ← hlen, ← b4]
              omega
            rw [harith]

/-! ## Glue lemmas for the round trip at string level -/

theorem invert_hunks (p : Patch) : p.invert.hunks = p.hunks.map Hunk.invert := by
  simp only [Patch.invert]
  split <;> rfl

theorem nlFree_addition : ∀ {ls : List Line} {t : String},
    nlFreeLines ls = true → Line.addition t ∈ ls → '\n' ∉ t.data := by
  intro ls
  induction ls with
  | nil => intro t _ ht; simp at ht
  | cons l rest ih =>
    intro t hnl ht
    cases l with
    | addition t' =>
      simp only [nlFreeLines, Bool.and_eq_true] at hnl
      rcases List.mem_cons.mp ht with h | h
      · cases h
        simpa using hnl.1
      · exact ih hnl.2 h
    | deletion t' =>
      simp only [nlFreeLines, Bool.and_eq_true] at hnl
      rcases List.mem_cons.mp ht with h | h
      · cases h
      · exact ih hnl.2 h
    | context t' =>
      simp only [nlFreeLines, Bool.and_eq_true] at hnl
      rcases List.mem_cons.mp ht with h | h
      · cases h
      · exact ih hnl.2 h
    | noNewline =>
      simp only [nlFreeLines] at hnl
      rcases List.mem_cons.mp ht with h | h
      · cases h
      · exact ih hnl h

theorem endsNl_decomp {s : String} (h : endsNl s = true) :
    s.data = s.data.dropLast ++ ['\n'] := by
  simp only [endsNl, beq_iff_eq] at h
  have := List.dropLast_append_getLast? '\n' h
  exact this.symm

theorem splitNl_last_of_endsNl {s : String} (h : endsNl s = true) :
    (splitNl s.data).getLast? = some [] := by
  rw [endsNl_decomp h, splitNl_append_last_nl]
  rw [List.getLast?_append_of_ne_nil _ (by simp)]
  rfl

theorem roundtrip_main (p : Patch) (s r : String)
    (hnn : ∀ h ∈ p.hunks, noNN h.lines = true)
    (hnl : ∀ h ∈ p.hunks, nlFreeLines h.lines = true)
    (hcons : consistentB p.hunks 1 1 = true)
    (hend : endsNl s = true)
    (hreach : oldReach p.hunks 1 ≤ (splitNl s.data).length)
    (happ : apply p s = .ok r) :
    apply p.invert r = .ok s := by
  by_cases hemp : p.hunks = []
  · have hr : r = s := by
      simp [apply, hemp] at happ
      exact happ.symm
    have hinv : p.invert.hunks = [] := by rw [invert_hunks, hemp]; rfl
    rw [hr]
    simp [apply, hinv]
  · have hne : p.hunks.isEmpty = false := by simp [List.isEmpty_iff, hemp]
    simp only [apply, hne, Bool.false_eq_true, if_false] at happ
    cases hcore : applyHunksCore p.hunks (splitNl s.data) 1 false with
    | error e => rw [hcore] at happ; simp at happ
    | ok quad =>
      obtain ⟨out, rem, numf, flag⟩ := quad
      rw [hcore] at happ; simp only at happ
      have hflag : flag = false := core_flag p.hunks _ 1 hnn hcore
      subst hflag
      obtain ⟨cons, hsrc, hreachEq, hlenEq⟩ := core_spec p.hunks _ 1 false hcore
      have hsplitlen : (splitNl s.data).length = cons.length + rem.length := by
        rw [hsrc]; simp
      have hremlen : 0 < rem.length := by
        have h1 : numf ≤ (splitNl s.data).length := hreachEq ▸ hreach
        omega
      have hremne : rem ≠ [] := by
        intro hc
        rw [hc] at hremlen
        simp at hremlen
      have hlast : rem.getLast? = some [] := by
        have h1 := splitNl_last_of_endsNl hend
        rw [hsrc, List.getLast?_append_of_ne_nil _ hremne] at h1
        exact h1
      have houtremne : out ++ rem ≠ [] := by simp [hremne]
      have houtremlast : (out ++ rem).getLast? = some [] := by
        rw [List.getLast?_append_of_ne_nil _ hremne]
        exact hlast
      have hjoin := joinNl_last_nil houtremlast
      have hcond : (!(joinNl (out ++ rem)).isEmpty
          && !((joinNl (out ++ rem)).getLast? == some '\n')) = false := by
        rcases hjoin with h | h
        · simp [h]
        · simp [h]
      have hne2 : (out ++ rem).isEmpty = false := by
        simp [List.isEmpty_iff, hremne]
      simp only [hne2, Bool.false_eq_true, if_false, hcond] at happ
      have hr : r = String.mk (joinNl (out ++ rem)) := by
        simpa [eq_comm] using happ
      have hfree : ∀ x ∈ out ++ rem, '\n' ∉ x := by
        intro x hx
        rcases List.mem_append.mp hx with hx | hx
        · rcases core_mem p.hunks _ 1 false hcore x hx with hin | ⟨t, hk, hhk, ht, hxt⟩
          · exact splitNl_nl_free x hin
          · subst hxt
            exact nlFree_addition (hnl hk hhk) ht
        · have hinsplit : x ∈ splitNl s.data := by
            rw [hsrc]
            exact List.mem_append_right _ hx
          exact splitNl_nl_free x hinsplit
      have hrsplit : splitNl r.data = out ++ rem := by
        rw [hr]
        exact splitNl_joinNl houtremne hfree
      obtain ⟨cons', hsrc', hrev⟩ := core_rt p.hunks _ 1 1 hnn hcons hcore
      have hinvne : p.invert.hunks.isEmpty = false := by
        rw [invert_hunks]
        simp [List.isEmpty_iff, hemp]
      have hrevcore : applyHunksCore p.invert.hunks (splitNl r.data) 1 false
          = .ok (cons', rem, 1 + out.length, false) := by
        rw [invert_hunks, hrsplit]
        exact hrev rem
      have hjoins : joinNl (cons' ++ rem) = s.data := by
        rw [← hsrc']
        exact joinNl_splitNl s.data
      have hsends : (joinNl (cons' ++ rem)).getLast? = some '\n' := by
        rw [hjoins]
        simpa [endsNl] using hend
      have hcons'ne : (cons' ++ rem).isEmpty = false := by
        simp [List.isEmpty_iff, hremne]
      have hcond2 : (!(joinNl (cons' ++ rem)).isEmpty
          && !((joinNl (cons' ++ rem)).getLast? == some '\n')) = false := by
        simp [hsends]
      simp only [apply, hinvne, Bool.false_eq_true, if_false, hrevcore,
        hcons'ne, hcond2]
      rw [hjoins]

/-! ## Lemmas about `parseHunkLines` on pure token streams -/

theorem lineOfToken_counts : ∀ {t : Token} {l : Line} {oi ni : Nat},
    lineOfToken t = some (l, oi, ni) →
    delCtxCount [l] = oi ∧ addCtxCount [l] = ni := by
  intro t l oi ni h
  cases t <;>
    simp only [lineOfToken, Option.some.injEq, Prod.mk.injEq, reduceCtorEq] at h
  all_goals
    (obtain ⟨h1, h2, h3⟩ := h
     subst h1
     subst h2
     subst h3
     simp [delCtxCount, addCtxCount])

theorem delCtxCount_cons (l : Line) (L : List Line) :
    delCtxCount (l :: L) = delCtxCount [l] + delCtxCount L := by
  cases l <;> simp [delCtxCount] <;> omega

theorem addCtxCount_cons (l : Line) (L : List Line) :
    addCtxCount (l :: L) = addCtxCount [l] + addCtxCount L := by
  cases l <;> simp [addCtxCount] <;> omega

theorem parseHunkLines_pure : ∀ toks : List Token, ∃ rest,
    parseHunkLines (toks.map Except.ok) =
      (.ok (collectRun toks, delCtxCount (collectRun toks) % u32Size,
        addCtxCount (collectRun toks) % u32Size), rest) := by
  intro toks
  induction toks with
  | nil => exact ⟨[], by simp [parseHunkLines, collectRun, delCtxCount, addCtxCount]⟩
  | cons t ts ih =>
    obtain ⟨rest', ihh⟩ := ih
    cases hl : lineOfToken t with
    | none =>
      refine ⟨.ok t :: ts.map .ok, ?_⟩
      simp [parseHunkLines, hl, collectRun, delCtxCount, addCtxCount]
    | some trip =>
      obtain ⟨l, oi, ni⟩ := trip
      obtain ⟨hdc, hac⟩ := lineOfToken_counts hl
      refine ⟨rest', ?_⟩
      have hcr : collectRun (t :: ts) = l :: collectRun ts := by
        simp [collectRun, hl]
      rw [hcr, delCtxCount_cons, addCtxCount_cons, hdc, hac]
      simp only [List.map_cons, parseHunkLines, hl, ihh, Nat.mod_add_mod]
      have h1 : delCtxCount (collectRun ts) + oi = oi + delCtxCount (collectRun ts) := by omega
      have h2 : addCtxCount (collectRun ts) + ni = ni + addCtxCount (collectRun ts) := by omega
      rw [h1, h2]

theorem parseHunkLines_replicate_ctx (s : String) : ∀ n : Nat,
    parseHunkLines (List.replicate n (Except.ok (Token.context s))) =
      (.ok (List.replicate n (Line.context s), n % u32Size, n % u32Size), []) := by
  intro n
  induction n with
  | zero => simp [parseHunkLines]
  | succ n ih =>
    rw [List.replicate_succ, List.replicate_succ]
    simp only [parseHunkLines, lineOfToken, ih, Nat.mod_add_mod]

theorem delCtxCount_replicate_ctx (s : String) : ∀ n : Nat,
    delCtxCount (List.replicate n (Line.context s)) = n := by
  intro n
  induction n with
  | zero => rfl
  | succ n ih =>
    rw [List.replicate_succ, delCtxCount_cons, ih]
    have h1 : delCtxCount [Line.context s] = 1 := rfl
    rw [h1]
    omega

theorem addCtxCount_replicate_ctx (s : String) : ∀ n : Nat,
    addCtxCount (List.replicate n (Line.context s)) = n := by
  intro n
  induction n with
  | zero => rfl
  | succ n ih =>
    rw [List.replicate_succ, addCtxCount_cons, ih]
    have h1 : addCtxCount [Line.context s] = 1 := rfl
    rw [h1]
    omega

/-! ## Lemmas for the trailing-newline policy -/

theorem lastLineSolid_spec {ls : List (List Char)} (h : lastLineSolid ls = true) :
    ∃ t, ls.getLast? = some t ∧ t ≠ [] ∧ '\n' ∉ t := by
  unfold lastLineSolid at h
  cases hl : ls.getLast? with
  | none => rw [hl] at h; simp at h
  | some t =>
    rw [hl] at h
    simp only [Bool.and_eq_true] at h
    refine ⟨t, rfl, ?_, ?_⟩
    · intro hc
      rw [hc] at h
      simp at h
    · have := h.2
      simp at this
      exact this

theorem data_mk (cs : List Char) : (String.mk cs).data = cs := rfl

theorem joinNl_solid_not_nl {ls : List (List Char)} (h : lastLineSolid ls = true) :
    (joinNl ls).getLast? ≠ some '\n' := by
  obtain ⟨t, hl, htne, htfree⟩ := lastLineSolid_spec h
  rw [joinNl_getLast_solid hl htne]
  intro hc
  have : '\n' ∈ t := by
    have := List.mem_getLast?_eq_getLast hc
    obtain ⟨hne, heq⟩ := this
    exact heq ▸ List.getLast_mem hne
  exact htfree this

/-! ## Claim theorems -/

/-- C1, counterexample: the hunk list `[@@ -1,1 +2,1 @@ -a +b]` applies
successfully to `"a\nx\n"` (producing `"b\nx\n"`, with the original
trailing-newline state preserved), yet applying the inverted patch to the
result fails instead of returning the original, because `apply` seeks by the
hunk's (never validated) `new_line` field when replaying the inversion. -/
theorem C1_roundtrip_cex :
    apply cexMisaligned "a\nx\n" = .ok "b\nx\n"
      ∧ apply cexMisaligned.invert "b\nx\n"
        = .error (.apply "Patch mismatch at line 2. Expected: `b`, Found: `x`") :=
  ⟨by decide, by decide⟩

/-- C1 (amended): for every patch p and source s, if apply(p, s) succeeds with
result r then apply(invert(p), r) succeeds and returns exactly s, provided
the hunks carry no NoNewline marker, no hunk line text embeds a newline, the
hunk positions are consistent (each hunk's new-side start seeks in the output
exactly as far as its old-side start seeks in the source, accounting for the
lines earlier hunks consumed and produced), the source ends with a newline,
and the hunks stop before the source's final newline-terminated position. -/
theorem C1_roundtrip_amended (p : Patch) (s r : String)
    (hnn : ∀ h ∈ p.hunks, noNN h.lines = true)
    (hnl : ∀ h ∈ p.hunks, nlFreeLines h.lines = true)
    (hcons : consistentB p.hunks 1 1 = true)
    (hend : endsNl s = true)
    (hreach : oldReach p.hunks 1 ≤ (splitNl s.data).length)
    (happ : apply p s = .ok r) :
    apply p.invert r = .ok s :=
  roundtrip_main p s r hnn hnl hcons hend hreach happ

/-- Witness for C1: the aligned single-hunk patch `[-a +b]` on `"a\n"`
satisfies every hypothesis, and the inverted patch recovers `"a\n"` from the
patched `"b\n"`. -/
theorem C1_roundtrip_amended_witness :
    (∀ h ∈ witReplace.hunks, noNN h.lines = true)
      ∧ consistentB witReplace.hunks 1 1 = true
      ∧ endsNl "a\n" = true
      ∧ apply witReplace "a\n" = .ok "b\n"
      ∧ apply witReplace.invert "b\n" = .ok "a\n" :=
  ⟨by decide, by decide, by decide, by decide,
    C1_roundtrip_amended witReplace "a\n" "b\n" (by decide) (by decide)
      (by decide) (by decide) (by decide) (by decide)⟩

/-- C2, counterexample: the body counters of `parse_hunk_lines` are `u32`
and wrap, so the hunk header `@@ -1,0 +1,0 @@` followed by `2 ^ 32` Context
body tokens is accepted by `parse_hunk` — both wrapped counters come back to
`0`, matching the declared spans — although the collected run's
Deletion-plus-Context count and Addition-plus-Context count are `2 ^ 32`,
not `0`: the claimed "Ok iff the counts equal the declared spans" fails in
the Ok-implies-equal direction. -/
theorem C2_hunk_span_validation_cex :
    (parseHunk (.ok (.hunkHeader 1 0 1 0)
        :: List.replicate (2 ^ 32) (.ok (.context "x")))).1
      = .ok { old_line := 1, old_span := 0, new_line := 1, new_span := 0,
              lines := List.replicate (2 ^ 32) (.context "x") }
    ∧ delCtxCount (List.replicate (2 ^ 32) (Line.context "x")) ≠ 0
    ∧ addCtxCount (List.replicate (2 ^ 32) (Line.context "x")) ≠ 0 := by
  refine ⟨?_, ?_, ?_⟩
  · have key : ∀ n : Nat, n % u32Size = 0 →
        (parseHunk (.ok (.hunkHeader 1 0 1 0)
            :: List.replicate n (.ok (.context "x")))).1
          = .ok { old_line := 1, old_span := 0, new_line := 1, new_span := 0,
                  lines := List.replicate n (.context "x") } := by
      intro n hmod
      have hrep := parseHunkLines_replicate_ctx "x" n
      rw [hmod] at hrep
      simp [parseHunk, hrep]
    exact key (2 ^ 32) (Nat.mod_self _)
  · rw [delCtxCount_replicate_ctx "x" (2 ^ 32)]
    positivity
  · rw [addCtxCount_replicate_ctx "x" (2 ^ 32)]
    positivity

/-- C2 (amended): an explicit hunk parses successfully iff the collected
run's Deletion-plus-Context count is congruent to the declared old span
modulo `2 ^ 32` and its Addition-plus-Context count is congruent to the
declared new span modulo `2 ^ 32` (the `u32` body counters wrap); and the
header `@@ -1,1 +1,3 @@` followed by one deletion and two additions (two
new-side lines) yields exactly the parse error
"Hunk line count mismatch for new file. Expected 3, got 2". -/
theorem C2_hunk_span_validation_amended :
    (∀ (ol os nl ns : Nat) (toks : List Token),
      (parseHunk (.ok (.hunkHeader ol os nl ns) :: toks.map .ok)).1.isOk = true ↔
        (delCtxCount (collectRun toks) % u32Size = os
          ∧ addCtxCount (collectRun toks) % u32Size = ns))
    ∧ (parseHunk [.ok (.hunkHeader 1 1 1 3), .ok (.deletion "hello"),
        .ok (.addition "hello"), .ok (.addition "world")]).1
      = .error (.parse "Hunk line count mismatch for new file. Expected 3, got 2") := by
  constructor
  · intro ol os nl ns toks
    obtain ⟨rest', hp⟩ := parseHunkLines_pure toks
    constructor
    · intro hok
      simp only [parseHunk, hp] at hok
      split at hok
      · simp [Except.isOk, Except.toBool] at hok
      · split at hok
        · simp [Except.isOk, Except.toBool] at hok
        · constructor
          · by_contra hc
            simp_all
          · by_contra hc
            simp_all
    · intro ⟨h1, h2⟩
      simp [parseHunk, hp, h1, h2, Except.isOk, Except.toBool]
  · decide

/-- C3, counterexample: the hunk `[-a, +b, NoNewline]` (its last NoNewline
directly after the Addition run, never reset) applies successfully to
`"a\n\n"`, yet the output `"b\n"` does end with a newline: the remaining
source lines appended after the hunk end in an empty segment, and the
normalization removes only one of the two trailing newlines. -/
theorem C3_trailing_newline_cex :
    apply cexNoNlPatch "a\n\n" = .ok "b\n" ∧ endsNl "b\n" = true :=
  ⟨by decide, by decide⟩

/-- C3 (amended): (1) when the no-newline flag survives to the end and the
final line of the pre-join result is non-empty without embedded newline, the
output has no trailing newline; (2) with hunks present and no NoNewline
marker anywhere, a non-empty output always ends with a newline; (3) with no
NoNewline marker and a solid final result line, the output ends with exactly
one newline (the joined text itself does not end in one). -/
theorem C3_trailing_newline_amended :
    (∀ (p : Patch) (s : String) (out rem : List (List Char)) (num : Nat),
      applyHunksCore p.hunks (splitNl s.data) 1 false = .ok (out, rem, num, true) →
      p.hunks.isEmpty = false →
      lastLineSolid (out ++ rem) = true →
      apply p s = .ok (String.mk (joinNl (out ++ rem)))
        ∧ endsNl (String.mk (joinNl (out ++ rem))) = false)
    ∧ (∀ (p : Patch) (s r : String),
      (∀ h ∈ p.hunks, noNN h.lines = true) → p.hunks ≠ [] →
      apply p s = .ok r → r ≠ "" → endsNl r = true)
    ∧ (∀ (p : Patch) (s : String) (out rem : List (List Char)) (num : Nat),
      (∀ h ∈ p.hunks, noNN h.lines = true) →
      applyHunksCore p.hunks (splitNl s.data) 1 false = .ok (out, rem, num, false) →
      p.hunks.isEmpty = false →
      lastLineSolid (out ++ rem) = true →
      apply p s = .ok (String.mk (joinNl (out ++ rem) ++ ['\n']))
        ∧ endsNl (String.mk (joinNl (out ++ rem) ++ ['\n'])) = true
        ∧ (joinNl (out ++ rem)).getLast? ≠ some '\n') := by
  refine ⟨?_, ?_, ?_⟩
  · intro p s out rem num hcore hne hsolid
    obtain ⟨t, hlastt, htne, htfree⟩ := lastLineSolid_spec hsolid
    have houtrem : out ++ rem ≠ [] := by
      intro hc
      rw [hc] at hlastt
      simp at hlastt
    have hne2 : (out ++ rem).isEmpty = false := by
      simp [List.isEmpty_iff, houtrem]
    have hnotnl : (joinNl (out ++ rem)).getLast? ≠ some '\n' :=
      joinNl_solid_not_nl hsolid
    constructor
    · simp only [apply, hne, Bool.false_eq_true, if_false, hcore]
      simp only [hne2, Bool.false_eq_true, if_false, if_true]
      rw [if_neg hnotnl]
    · simp only [endsNl, data_mk]
      simpa using hnotnl
  · intro p s r hnn hne happ hrne
    have hb : p.hunks.isEmpty = false := by simp [List.isEmpty_iff, hne]
    simp only [apply, hb, Bool.false_eq_true, if_false] at happ
    cases hcore : applyHunksCore p.hunks (splitNl s.data) 1 false with
    | error e => rw [hcore] at happ; simp at happ
    | ok quad =>
      obtain ⟨out, rem, numf, flag⟩ := quad
      rw [hcore] at happ
      simp only at happ
      have hflag : flag = false := core_flag p.hunks _ 1 hnn hcore
      subst hflag
      by_cases hre : (out ++ rem).isEmpty = true
      · simp only [hre, if_true] at happ
        have : r = "" := by simpa [eq_comm] using happ
        exact absurd this hrne
      · have hre' : (out ++ rem).isEmpty = false := by simpa using hre
        simp only [hre', Bool.false_eq_true, if_false] at happ
        by_cases hc : (!(joinNl (out ++ rem)).isEmpty
            && !((joinNl (out ++ rem)).getLast? == some '\n')) = true
        · simp only [hc, if_true] at happ
          have hr : r = String.mk (joinNl (out ++ rem) ++ ['\n']) := by
            simpa [eq_comm] using happ
          rw [hr]
          simp [endsNl, data_mk]
        · have hcf : (!(joinNl (out ++ rem)).isEmpty
              && !((joinNl (out ++ rem)).getLast? == some '\n')) = false := by
            simpa using hc
          simp only [hcf, Bool.false_eq_true, if_false] at happ
          have hr : r = String.mk (joinNl (out ++ rem)) := by
            simpa [eq_comm] using happ
          by_cases hj : joinNl (out ++ rem) = []
          · refine absurd ?_ hrne
            rw [hr, hj]
          · have h1 : (!(joinNl (out ++ rem)).isEmpty) = true := by
              simp [List.isEmpty_iff, hj]
            have hb' : ((joinNl (out ++ rem)).getLast? == some '\n') = true := by
              have h2 := hcf
              rw [h1, Bool.true_and] at h2
              simpa using h2
            rw [hr]
            simpa [endsNl, data_mk] using hb'
  · intro p s out rem num hnn hcore hne hsolid
    obtain ⟨t, hlastt, htne, htfree⟩ := lastLineSolid_spec hsolid
    have houtrem : out ++ rem ≠ [] := by
      intro hc
      rw [hc] at hlastt
      simp at hlastt
    have hne2 : (out ++ rem).isEmpty = false := by
      simp [List.isEmpty_iff, houtrem]
    have hnotnl : (joinNl (out ++ rem)).getLast? ≠ some '\n' :=
      joinNl_solid_not_nl hsolid
    have hjoinne : joinNl (out ++ rem) ≠ [] := by
      intro hc
      have hgl : (joinNl (out ++ rem)).getLast? = t.getLast? :=
        joinNl_getLast_solid hlastt htne
      rw [hc] at hgl
      simp only [List.getLast?] at hgl
      exact htne (List.getLast?_eq_none_iff.mp hgl.symm)
    have hcond : (!(joinNl (out ++ rem)).isEmpty
        && !((joinNl (out ++ rem)).getLast? == some '\n')) = true := by
      simp [List.isEmpty_iff, hjoinne, hnotnl]
    refine ⟨?_, ?_, hnotnl⟩
    · simp only [apply, hne, Bool.false_eq_true, if_false, hcore]
      simp only [hne2, Bool.false_eq_true, if_false, hcond, if_true]
    · simp [endsNl, data_mk]

/-- Witness for C3: instances of all three amended conjuncts on concrete
patches: `[-a, +b, NoNewline]` on `"a"` gives `"b"` with no trailing newline;
`[-hello +hello +world]` on `"hello"` gives `"hello\nworld\n"`, ending in
exactly one newline. -/
theorem C3_trailing_newline_amended_witness :
    (apply cexNoNlPatch "a" = .ok (String.mk (joinNl (["b".data] ++ [])))
      ∧ endsNl (String.mk (joinNl (["b".data] ++ []))) = false)
    ∧ endsNl "hello\nworld\n" = true
    ∧ (apply addNlPatch "hello"
        = .ok (String.mk (joinNl (["hello".data, "world".data] ++ []) ++ ['\n']))
      ∧ endsNl (String.mk (joinNl (["hello".data, "world".data] ++ []) ++ ['\n'])) = true
      ∧ (joinNl (["hello".data, "world".data] ++ [])).getLast? ≠ some '\n') :=
  ⟨C3_trailing_newline_amended.1 cexNoNlPatch "a" ["b".data] [] 2
      (by decide) (by decide) (by decide),
    C3_trailing_newline_amended.2.1 addNlPatch "hello" "hello\nworld\n"
      (by decide) (by decide) (by decide) (by decide),
    C3_trailing_newline_amended.2.2 addNlPatch "hello"
      ["hello".data, "world".data] [] 2 (by decide) (by decide) (by decide) (by decide)⟩

/-- C4: a patch with an empty hunk list applies to any source unchanged. -/
theorem C4_empty_patch_identity (p : Patch) (s : String) (h : p.hunks = []) :
    apply p s = .ok s := by
  simp [apply, h]

/-- Witness for C4 at the default (hunkless) patch and a concrete source. -/
theorem C4_empty_patch_identity_witness :
    defaultPatch.hunks = [] ∧ apply defaultPatch "x\ny" = .ok "x\ny" :=
  ⟨rfl, C4_empty_patch_identity defaultPatch "x\ny" rfl⟩

/-- C5: a Context or Deletion line that differs byte-for-byte from the next
unconsumed source line makes the replay fail with the exact
"Patch mismatch at line N. Expected: `..`, Found: `..`" message carrying the
1-based line number (or `<EOF>` when the source is exhausted); concretely,
source "different line" against Context "expected line" yields the error
citing line 1. -/
theorem C5_mismatch_error_reporting :
    (∀ (t : String) (rest : List Line) (x : List Char) (xs : List (List Char))
        (num : Nat) (ia fl : Bool), x ≠ t.data →
      processLines (.context t :: rest) (x :: xs) num ia fl
        = .error (.apply (mismatchMsg num t (String.mk x))))
    ∧ (∀ (t : String) (rest : List Line) (x : List Char) (xs : List (List Char))
        (num : Nat) (ia fl : Bool), x ≠ t.data →
      processLines (.deletion t :: rest) (x :: xs) num ia fl
        = .error (.apply (mismatchMsg num t (String.mk x))))
    ∧ (∀ (t : String) (rest : List Line) (num : Nat) (ia fl : Bool),
      processLines (.context t :: rest) [] num ia fl
        = .error (.apply (mismatchEofMsg num t)))
    ∧ (∀ (t : String) (rest : List Line) (num : Nat) (ia fl : Bool),
      processLines (.deletion t :: rest) [] num ia fl
        = .error (.apply (mismatchEofMsg num t)))
    ∧ apply mismatchPatch "different line"
      = .error (.apply "Patch mismatch at line 1. Expected: `expected line`, Found: `different line`") := by
  refine ⟨?_, ?_, ?_, ?_, by decide⟩
  · intro t rest x xs num ia fl hne
    simp [processLines, hne]
  · intro t rest x xs num ia fl hne
    simp [processLines, hne]
  · intro t rest num ia fl
    simp [processLines]
  · intro t rest num ia fl
    simp [processLines]

/-- Witness for C5: the mismatch conjunct applied at the spec's concrete
scenario. -/
theorem C5_mismatch_error_reporting_witness :
    "different line".data ≠ "expected line".data
      ∧ processLines [.context "expected line"] ["different line".data] 1 false false
        = .error (.apply (mismatchMsg 1 "expected line" (String.mk "different line".data))) :=
  ⟨by decide, C5_mismatch_error_reporting.1 "expected line" [] "different line".data
    [] 1 false false (by decide)⟩

/-- C6: the lexer silently skips an entirely empty line even inside a hunk
body — `" a\n\n b"` lexes to exactly two Context tokens, with no token for
the empty middle line — although `next_token`'s own classification maps an
empty line to a zero-content Context token, exactly as the claim describes;
the skip loop in `next` makes that branch unreachable. -/
theorem C6_empty_line_skipped :
    tokenize " a\n\n b" = [.ok (.context " a"), .ok (.context " b")]
      ∧ classifyLine "" = .ok (.context "") :=
  ⟨by decide, by decide⟩

/-- C8: inverting twice is the identity whenever neither file is the
`/dev/null` sentinel (so the deleted-file-mode special case fires in neither
inversion). -/
theorem C8_invert_involutive (p : Patch) (h1 : p.old_file ≠ "/dev/null")
    (h2 : p.new_file ≠ "/dev/null") : p.invert.invert = p := by
  have hline : ∀ l, invertLine (invertLine l) = l := by
    intro l
    cases l <;> rfl
  have hhunk : ∀ h : Hunk, h.invert.invert = h := by
    intro h
    cases h with
    | mk ol os nl ns ls =>
      simp [Hunk.invert, List.map_map, Function.comp_def, hline]
  cases p with
  | mk po pn phs prf prt pnm pom pdfm psim pbin pcf pct pdis pim =>
    simp only at h1 h2
    simp [Patch.invert, h1, h2, List.map_map, Function.comp_def, hhunk]

/-- Witness for C8 at a patch carrying every invertible field. -/
theorem C8_invert_involutive_witness :
    fullPatch.old_file ≠ "/dev/null" ∧ fullPatch.new_file ≠ "/dev/null"
      ∧ fullPatch.invert.invert = fullPatch :=
  ⟨by decide, by decide, C8_invert_involutive fullPatch (by decide) (by decide)⟩

/-- C9: when `apply` fails for a (non-binary) patch, the orchestrator returns
that very error and the file system — including the log of every
write/remove/create-dir/set-permissions call — is exactly what it was before
that patch: the new content is fully computed before any call is issued. -/
theorem C9_apply_failure_atomic (fs : FS) (p : Patch)
    (rest : List (Except Error Patch)) (rev : Bool) (e : Error)
    (hb : (if rev then p.invert else p).is_binary = false)
    (ha : apply (if rev then p.invert else p)
        (sourceContentOf fs (if rev then p.invert else p)) = .error e) :
    processPatches fs (.ok p :: rest) rev = (fs, some e)
      ∧ patchOne fs (if rev then p.invert else p) = (fs, some e) := by
  have hone : patchOne fs (if rev then p.invert else p) = (fs, some e) := by
    simp only [patchOne, hb, Bool.false_eq_true, if_false, ha]
  refine ⟨?_, hone⟩
  simp only [processPatches, hone]

/-- Witness for C9: the mismatching patch against an empty file system fails
in `apply` and leaves the file system untouched. -/
theorem C9_apply_failure_atomic_witness :
    mismatchPatch.is_binary = false
      ∧ apply mismatchPatch (sourceContentOf emptyFS mismatchPatch)
        = .error (.apply "Patch mismatch at line 1. Expected: `expected line`, Found: ``")
      ∧ processPatches emptyFS [.ok mismatchPatch] false
        = (emptyFS, some (.apply "Patch mismatch at line 1. Expected: `expected line`, Found: ``")) :=
  ⟨by decide, by decide,
    (C9_apply_failure_atomic emptyFS mismatchPatch [] false
      (.apply "Patch mismatch at line 1. Expected: `expected line`, Found: ``")
      (by decide) (by decide)).1⟩

/-- C10: inversion leaves `is_binary`, `similarity`, `dissimilarity`,
`index_mode` and `deleted_file_mode` unchanged, preserves the hunk count and
each hunk's line count, and leaves every Context and NoNewline line in place
unchanged (positionwise, via the `keepCtxNN` projection). -/
theorem C10_invert_frame (p : Patch) :
    p.invert.is_binary = p.is_binary
      ∧ p.invert.similarity = p.similarity
      ∧ p.invert.dissimilarity = p.dissimilarity
      ∧ p.invert.index_mode = p.index_mode
      ∧ p.invert.deleted_file_mode = p.deleted_file_mode
      ∧ p.invert.hunks.length = p.hunks.length
      ∧ p.invert.hunks.map (fun h => h.lines.length)
        = p.hunks.map (fun h => h.lines.length)
      ∧ p.invert.hunks.map (fun h => h.lines.map keepCtxNN)
        = p.hunks.map (fun h => h.lines.map keepCtxNN) := by
  have hk : ∀ l, keepCtxNN (invertLine l) = keepCtxNN l := by
    intro l
    cases l <;> rfl
  cases p with
  | mk po pn phs prf prt pnm pom pdfm psim pbin pcf pct pdis pim =>
    simp only [Patch.invert]
    split <;>
      simp [Hunk.invert, List.map_map, Function.comp_def, hk, List.length_map]

/-! ## Lemmas for parser-iterator finiteness (C7) -/

theorem takeMeta_suffix : ∀ (ts : TokStream) (p : Patch), (takeMeta p ts).2 <:+ ts := by
  intro ts
  induction ts with
  | nil => intro p; simp [takeMeta]
  | cons x rest ih =>
    intro p
    cases x with
    | error e => exact List.suffix_refl _
    | ok t =>
      cases hm : metaStep p t with
      | none => simp only [takeMeta, hm]; exact List.suffix_refl _
      | some p' =>
        simp only [takeMeta, hm]
        exact (ih p').trans (List.suffix_cons _ _)

theorem parseHunkLines_suffix : ∀ (ts : TokStream), (parseHunkLines ts).2 <:+ ts := by
  intro ts
  induction ts with
  | nil => simp [parseHunkLines]
  | cons x rest ih =>
    cases x with
    | error e => exact List.suffix_refl _
    | ok t =>
      cases hl : lineOfToken t with
      | none => simp only [parseHunkLines, hl]; exact List.suffix_refl _
      | some trip =>
        obtain ⟨l, oi, ni⟩ := trip
        simp only [parseHunkLines, hl]
        cases hrec : parseHunkLines rest with
        | mk res ts' =>
          rw [hrec] at ih
          cases res with
          | error e => exact ih.trans (List.suffix_cons _ _)
          | ok trip2 =>
            obtain ⟨ls, oc, nc⟩ := trip2
            exact ih.trans (List.suffix_cons _ _)

theorem parseHunk_suffix : ∀ (ts : TokStream), (parseHunk ts).2 <:+ ts := by
  intro ts
  match ts with
  | .ok (.hunkHeader a b c d) :: rest =>
    have hpl := parseHunkLines_suffix rest
    cases hrec : parseHunkLines rest with
    | mk res ts' =>
      rw [hrec] at hpl
      simp only at hpl
      have hts : ts' <:+ (.ok (.hunkHeader a b c d) :: rest) :=
        hpl.trans (List.suffix_cons _ _)
      cases res with
      | error e =>
        simp only [parseHunk, hrec]
        exact hts
      | ok trip =>
        obtain ⟨ls, oc, nc⟩ := trip
        simp only [parseHunk, hrec]
        split
        · exact hts
        · split
          · exact hts
          · exact hts
  | [] => exact List.nil_suffix
  | .error e :: rest => exact List.tail_suffix (Except.error e :: rest)
  | .ok .noNewline :: rest => exact List.tail_suffix (.ok Token.noNewline :: rest)
  | .ok (.fileHeader u v) :: rest => exact List.tail_suffix (.ok (Token.fileHeader u v) :: rest)
  | .ok (.index u v w) :: rest => exact List.tail_suffix (.ok (Token.index u v w) :: rest)
  | .ok (.oldFile u) :: rest => exact List.tail_suffix (.ok (Token.oldFile u) :: rest)
  | .ok (.newFile u) :: rest => exact List.tail_suffix (.ok (Token.newFile u) :: rest)
  | .ok (.addition u) :: rest => exact List.tail_suffix (.ok (Token.addition u) :: rest)
  | .ok (.deletion u) :: rest => exact List.tail_suffix (.ok (Token.deletion u) :: rest)
  | .ok (.context u) :: rest => exact List.tail_suffix (.ok (Token.context u) :: rest)
  | .ok (.renameFrom u) :: rest => exact List.tail_suffix (.ok (Token.renameFrom u) :: rest)
  | .ok (.renameTo u) :: rest => exact List.tail_suffix (.ok (Token.renameTo u) :: rest)
  | .ok (.similarity u) :: rest => exact List.tail_suffix (.ok (Token.similarity u) :: rest)
  | .ok (.newFileMode u) :: rest => exact List.tail_suffix (.ok (Token.newFileMode u) :: rest)
  | .ok (.oldFileMode u) :: rest => exact List.tail_suffix (.ok (Token.oldFileMode u) :: rest)
  | .ok (.deletedFileMode u) :: rest => exact List.tail_suffix (.ok (Token.deletedFileMode u) :: rest)
  | .ok (.binaryFileDiffer u v) :: rest => exact List.tail_suffix (.ok (Token.binaryFileDiffer u v) :: rest)
  | .ok (.copyFrom u) :: rest => exact List.tail_suffix (.ok (Token.copyFrom u) :: rest)
  | .ok (.copyTo u) :: rest => exact List.tail_suffix (.ok (Token.copyTo u) :: rest)
  | .ok (.dissimilarity u) :: rest => exact List.tail_suffix (.ok (Token.dissimilarity u) :: rest)

theorem parseHunksF_suffix : ∀ (fuel : Nat) (ts : TokStream),
    (parseHunksF fuel ts).2 <:+ ts := by
  intro fuel
  induction fuel with
  | zero => intro ts; exact List.suffix_refl _
  | succ fuel ih =>
    intro ts
    match ts with
    | .ok (.hunkHeader a b c d) :: rest =>
      cases hrec : parseHunk (.ok (.hunkHeader a b c d) :: rest) with
      | mk res ts' =>
        have hph : ts' <:+ (.ok (.hunkHeader a b c d) :: rest) := by
          have h0 := parseHunk_suffix (.ok (.hunkHeader a b c d) :: rest)
          rw [hrec] at h0
          exact h0
        cases res with
        | error e =>
          simp only [parseHunksF, hrec]
          exact hph
        | ok hk =>
          cases hrec2 : parseHunksF fuel ts' with
          | mk res2 ts'' =>
            have hr : ts'' <:+ ts' := by
              have h0 := ih ts'
              rw [hrec2] at h0
              exact h0
            cases res2 with
            | error e =>
              simp only [parseHunksF, hrec, hrec2]
              exact hr.trans hph
            | ok hks =>
              simp only [parseHunksF, hrec, hrec2]
              exact hr.trans hph
    | [] => exact List.suffix_refl _
    | .error e :: rest => exact List.suffix_refl _
    | .ok .noNewline :: rest => exact List.suffix_refl _
    | .ok (.fileHeader u v) :: rest => exact List.suffix_refl _
    | .ok (.index u v w) :: rest => exact List.suffix_refl _
    | .ok (.oldFile u) :: rest => exact List.suffix_refl _
    | .ok (.newFile u) :: rest => exact List.suffix_refl _
    | .ok (.addition u) :: rest => exact List.suffix_refl _
    | .ok (.deletion u) :: rest => exact List.suffix_refl _
    | .ok (.context u) :: rest => exact List.suffix_refl _
    | .ok (.renameFrom u) :: rest => exact List.suffix_refl _
    | .ok (.renameTo u) :: rest => exact List.suffix_refl _
    | .ok (.similarity u) :: rest => exact List.suffix_refl _
    | .ok (.newFileMode u) :: rest => exact List.suffix_refl _
    | .ok (.oldFileMode u) :: rest => exact List.suffix_refl _
    | .ok (.deletedFileMode u) :: rest => exact List.suffix_refl _
    | .ok (.binaryFileDiffer u v) :: rest => exact List.suffix_refl _
    | .ok (.copyFrom u) :: rest => exact List.suffix_refl _
    | .ok (.copyTo u) :: rest => exact List.suffix_refl _
    | .ok (.dissimilarity u) :: rest => exact List.suffix_refl _

theorem parseHunks_suffix_snd (ts : TokStream) : (parseHunks ts).2 <:+ ts :=
  parseHunksF_suffix ts.length ts

theorem parsePatchRest_after (p1 : Patch) (ts : TokStream) :
    (parsePatchRest p1 ts).2 <:+ ts := by
  have hcommon : ∀ (res : Except Error (List Hunk)) (ts2 : TokStream),
      parseHunks ts = (res, ts2) →
      (match parseHunks ts with
        | (.error e, ts2) => ((.error e : Except Error Patch), ts2)
        | (.ok hunks, ts2) =>
          if hunks.isEmpty then
            match parseHunkLines ts2 with
            | (.error e, ts3) => (.error e, ts3)
            | (.ok (lines, old_span, new_span), ts3) =>
              if lines.isEmpty then (.ok { p1 with hunks := hunks }, ts3)
              else if p1.old_file = "" ∧ p1.new_file = "" then
                (.error (.parse "Patch has hunks but no file information"), ts3)
              else
                (.ok { p1 with hunks :=
                  [{ old_line := if old_span > 0 then 1 else 0, old_span := old_span,
                     new_line := if new_span > 0 then 1 else 0, new_span := new_span,
                     lines := lines }] }, ts3)
          else (.ok { p1 with hunks := hunks }, ts2)).2 <:+ ts := by
    intro res ts2 hrec
    have hh2 : ts2 <:+ ts := by
      have h0 := parseHunks_suffix_snd ts
      rw [hrec] at h0
      exact h0
    cases res with
    | error e =>
      simp only [hrec]
      exact hh2
    | ok hunks =>
      simp only [hrec]
      split
      · cases hrec2 : parseHunkLines ts2 with
        | mk res2 ts3 =>
          have hl2 : ts3 <:+ ts2 := by
            have h0 := parseHunkLines_suffix ts2
            rw [hrec2] at h0
            exact h0
          cases res2 with
          | error e =>
            simp only [hrec2]
            exact hl2.trans hh2
          | ok trip =>
            obtain ⟨lines, os, ns⟩ := trip
            simp only [hrec2]
            split
            · exact hl2.trans hh2
            · split
              · exact hl2.trans hh2
              · exact hl2.trans hh2
      · exact hh2
  cases ts with
  | nil =>
    cases hrec : parseHunks ([] : TokStream) with
    | mk res ts2 => exact hcommon res ts2 hrec
  | cons x rest =>
    cases x with
    | error e => exact List.suffix_refl _
    | ok t =>
      cases hrec : parseHunks (.ok t :: rest) with
      | mk res ts2 => exact hcommon res ts2 hrec

theorem parsePatch_suffix (ts : TokStream) : (parsePatch ts).2 <:+ ts := by
  have hmain : ∀ (p0 : Patch) (ts0 : TokStream), ts0 <:+ ts →
      (parsePatchRest (takeMeta p0 ts0).1 (takeMeta p0 ts0).2).2 <:+ ts := by
    intro p0 ts0 h0
    exact (parsePatchRest_after _ _).trans ((takeMeta_suffix ts0 p0).trans h0)
  match ts with
  | .ok (.fileHeader fo fn) :: rest =>
    exact hmain _ rest (List.suffix_cons _ _)
  | [] => exact hmain _ [] (List.suffix_refl _)
  | .error e :: rest => exact hmain _ _ (List.suffix_refl _)
  | .ok .noNewline :: rest => exact hmain _ _ (List.suffix_refl _)
  | .ok (.index _ _ _) :: rest => exact hmain _ _ (List.suffix_refl _)
  | .ok (.oldFile _) :: rest => exact hmain _ _ (List.suffix_refl _)
  | .ok (.newFile _) :: rest => exact hmain _ _ (List.suffix_refl _)
  | .ok (.hunkHeader _ _ _ _) :: rest => exact hmain _ _ (List.suffix_refl _)
  | .ok (.addition _) :: rest => exact hmain _ _ (List.suffix_refl _)
  | .ok (.deletion _) :: rest => exact hmain _ _ (List.suffix_refl _)
  | .ok (.context _) :: rest => exact hmain _ _ (List.suffix_refl _)
  | .ok (.renameFrom _) :: rest => exact hmain _ _ (List.suffix_refl _)
  | .ok (.renameTo _) :: rest => exact hmain _ _ (List.suffix_refl _)
  | .ok (.similarity _) :: rest => exact hmain _ _ (List.suffix_refl _)
  | .ok (.newFileMode _) :: rest => exact hmain _ _ (List.suffix_refl _)
  | .ok (.oldFileMode _) :: rest => exact hmain _ _ (List.suffix_refl _)
  | .ok (.deletedFileMode _) :: rest => exact hmain _ _ (List.suffix_refl _)
  | .ok (.binaryFileDiffer _ _) :: rest => exact hmain _ _ (List.suffix_refl _)
  | .ok (.copyFrom _) :: rest => exact hmain _ _ (List.suffix_refl _)
  | .ok (.copyTo _) :: rest => exact hmain _ _ (List.suffix_refl _)
  | .ok (.dissimilarity _) :: rest => exact hmain _ _ (List.suffix_refl _)

theorem parseHunk_hh_snd (a b c d : Nat) (rest : TokStream) :
    (parseHunk (.ok (.hunkHeader a b c d) :: rest)).2 = (parseHunkLines rest).2 := by
  simp only [parseHunk]
  cases hrec : parseHunkLines rest with
  | mk res ts' =>
    cases res with
    | error e => rfl
    | ok trip =>
      obtain ⟨ls, oc, nc⟩ := trip
      simp only
      split
      · rfl
      · split
        · rfl
        · rfl

theorem parseHunks_hh (a b c d : Nat) (rest : TokStream) :
    (parseHunks (.ok (.hunkHeader a b c d) :: rest)).2.length ≤ rest.length
      ∧ (∀ hunks ts2, parseHunks (.ok (.hunkHeader a b c d) :: rest) = (.ok hunks, ts2)
          → hunks ≠ []) := by
  have hsnd : (parseHunk (.ok (.hunkHeader a b c d) :: rest)).2.length ≤ rest.length := by
    rw [parseHunk_hh_snd]
    exact (parseHunkLines_suffix rest).length_le
  cases hrec : parseHunk (.ok (.hunkHeader a b c d) :: rest) with
  | mk res ts' =>
    rw [hrec] at hsnd
    simp only at hsnd
    cases res with
    | error e =>
      constructor
      · simp only [parseHunks, List.length_cons, parseHunksF, hrec]
        exact hsnd
      · intro hunks ts2 heq
        simp only [parseHunks, List.length_cons, parseHunksF, hrec] at heq
        simp at heq
    | ok hk =>
      cases hrec2 : parseHunksF rest.length ts' with
      | mk res2 ts'' =>
        have hts'' : ts''.length ≤ ts'.length := by
          have h0 := parseHunksF_suffix rest.length ts'
          rw [hrec2] at h0
          exact h0.length_le
        cases res2 with
        | error e =>
          constructor
          · simp only [parseHunks, List.length_cons, parseHunksF, hrec, hrec2]
            omega
          · intro hunks ts2 heq
            simp only [parseHunks, List.length_cons, parseHunksF, hrec, hrec2] at heq
            simp at heq
        | ok hks =>
          constructor
          · simp only [parseHunks, List.length_cons, parseHunksF, hrec, hrec2]
            omega
          · intro hunks ts2 heq
            simp only [parseHunks, List.length_cons, parseHunksF, hrec, hrec2,
              Prod.mk.injEq, Except.ok.injEq] at heq
            intro hc
            rw [← heq.1] at hc
            cases hc

theorem parseHunkLines_cons_line (t : Token) (l : Line) (oi ni : Nat)
    (rest : TokStream) (hl : lineOfToken t = some (l, oi, ni)) :
    (∃ e ts3, parseHunkLines (.ok t :: rest) = (.error e, ts3)
        ∧ ts3.length ≤ rest.length)
      ∨ (∃ ls oc nc ts3, parseHunkLines (.ok t :: rest) = (.ok (l :: ls, oc, nc), ts3)
        ∧ ts3.length ≤ rest.length) := by
  simp only [parseHunkLines, hl]
  cases hrec : parseHunkLines rest with
  | mk res ts' =>
    have hts' : ts'.length ≤ rest.length := by
      have h0 := parseHunkLines_suffix rest
      rw [hrec] at h0
      exact h0.length_le
    cases res with
    | error e => exact Or.inl ⟨e, ts', rfl, hts'⟩
    | ok trip =>
      obtain ⟨ls, oc, nc⟩ := trip
      exact Or.inr ⟨ls, (oc + oi) % u32Size, (nc + ni) % u32Size, ts', rfl, hts'⟩

theorem parsePatch_cons_ok_notFH (t : Token) (rest : TokStream)
    (hnf : ∀ u v, t ≠ .fileHeader u v) :
    parsePatch (.ok t :: rest)
      = parsePatchRest (takeMeta defaultPatch (.ok t :: rest)).1
          (takeMeta defaultPatch (.ok t :: rest)).2 := by
  cases t <;> first | rfl | exact absurd rfl (hnf _ _)

theorem parsePatch_progress (x : Except Error Token) (rest : TokStream)
    (hok : allOk (x :: rest) = true) :
    (parsePatch (x :: rest)).2.length < (x :: rest).length := by
  cases x with
  | error e => simp [allOk] at hok
  | ok t =>
    simp only [List.length_cons]
    by_cases hfh : ∃ u v, t = .fileHeader u v
    · obtain ⟨u, v, rfl⟩ := hfh
      have hrfl : parsePatch (.ok (.fileHeader u v) :: rest)
          = parsePatchRest
              (takeMeta { defaultPatch with old_file := u, new_file := v } rest).1
              (takeMeta { defaultPatch with old_file := u, new_file := v } rest).2 := rfl
      rw [hrfl]
      have h1 := (takeMeta_suffix rest
        { defaultPatch with old_file := u, new_file := v }).length_le
      have h2 := (parsePatchRest_after
        (takeMeta { defaultPatch with old_file := u, new_file := v } rest).1
        (takeMeta { defaultPatch with old_file := u, new_file := v } rest).2).length_le
      omega
    · have hnf : ∀ u v, t ≠ .fileHeader u v := fun u v hc => hfh ⟨u, v, hc⟩
      rw [parsePatch_cons_ok_notFH t rest hnf]
      cases hm : metaStep defaultPatch t with
      | some p' =>
        have hstep : takeMeta defaultPatch (.ok t :: rest) = takeMeta p' rest := by
          simp [takeMeta, hm]
        rw [hstep]
        have h1 := (takeMeta_suffix rest p').length_le
        have h2 := (parsePatchRest_after (takeMeta p' rest).1
          (takeMeta p' rest).2).length_le
        omega
      | none =>
        have hstep : takeMeta defaultPatch (.ok t :: rest)
            = (defaultPatch, .ok t :: rest) := by
          simp [takeMeta, hm]
        rw [hstep]
        cases t with
        | fileHeader u v => exact absurd ⟨u, v, rfl⟩ hfh
        | hunkHeader a b c d =>
          obtain ⟨hlen, hne⟩ := parseHunks_hh a b c d rest
          cases hrec : parseHunks (.ok (.hunkHeader a b c d) :: rest) with
          | mk res ts2 =>
            rw [hrec] at hlen
            simp only at hlen
            cases res with
            | error e =>
              simp only [parsePatchRest, hrec]
              show ts2.length < rest.length + 1
              omega
            | ok hunks =>
              have hhne : hunks ≠ [] := hne hunks ts2 hrec
              have hemp : hunks.isEmpty = false := by
                simp [List.isEmpty_iff, hhne]
              simp only [parsePatchRest, hrec, hemp, Bool.false_eq_true, if_false]
              show ts2.length < rest.length + 1
              omega
        | addition s =>
          rcases parseHunkLines_cons_line (.addition s) (.addition s) 0 1 rest
              (by simp [lineOfToken]) with
            ⟨e, ts3, heq, hlen⟩ | ⟨ls, oc, nc, ts3, heq, hlen⟩
          · simp only [parsePatchRest, parseHunks, List.length_cons, parseHunksF,
              List.isEmpty_nil, if_true, heq]
            show ts3.length < rest.length + 1
            omega
          · simp only [parsePatchRest, parseHunks, List.length_cons, parseHunksF,
              List.isEmpty_nil, if_true, heq]
            split
            · show ts3.length < rest.length + 1
              omega
            · split
              · show ts3.length < rest.length + 1
                omega
              · show ts3.length < rest.length + 1
                omega
        | deletion s =>
          rcases parseHunkLines_cons_line (.deletion s) (.deletion s) 1 0 rest
              (by simp [lineOfToken]) with
            ⟨e, ts3, heq, hlen⟩ | ⟨ls, oc, nc, ts3, heq, hlen⟩
          · simp only [parsePatchRest, parseHunks, List.length_cons, parseHunksF,
              List.isEmpty_nil, if_true, heq]
            show ts3.length < rest.length + 1
            omega
          · simp only [parsePatchRest, parseHunks, List.length_cons, parseHunksF,
              List.isEmpty_nil, if_true, heq]
            split
            · show ts3.length < rest.length + 1
              omega
            · split
              · show ts3.length < rest.length + 1
                omega
              · show ts3.length < rest.length + 1
                omega
        | context s =>
          rcases parseHunkLines_cons_line (.context s) (.context s) 1 1 rest
              (by simp [lineOfToken]) with
            ⟨e, ts3, heq, hlen⟩ | ⟨ls, oc, nc, ts3, heq, hlen⟩
          · simp only [parsePatchRest, parseHunks, List.length_cons, parseHunksF,
              List.isEmpty_nil, if_true, heq]
            show ts3.length < rest.length + 1
            omega
          · simp only [parsePatchRest, parseHunks, List.length_cons, parseHunksF,
              List.isEmpty_nil, if_true, heq]
            split
            · show ts3.length < rest.length + 1
              omega
            · split
              · show ts3.length < rest.length + 1
                omega
              · show ts3.length < rest.length + 1
                omega
        | noNewline =>
          rcases parseHunkLines_cons_line .noNewline .noNewline 0 0 rest
              (by simp [lineOfToken]) with
            ⟨e, ts3, heq, hlen⟩ | ⟨ls, oc, nc, ts3, heq, hlen⟩
          · simp only [parsePatchRest, parseHunks, List.length_cons, parseHunksF,
              List.isEmpty_nil, if_true, heq]
            show ts3.length < rest.length + 1
            omega
          · simp only [parsePatchRest, parseHunks, List.length_cons, parseHunksF,
              List.isEmpty_nil, if_true, heq]
            split
            · show ts3.length < rest.length + 1
              omega
            · split
              · show ts3.length < rest.length + 1
                omega
              · show ts3.length < rest.length + 1
                omega
        | renameFrom s => simp [metaStep] at hm
        | renameTo s => simp [metaStep] at hm
        | similarity n => simp [metaStep] at hm
        | newFileMode n => simp [metaStep] at hm
        | oldFileMode n => simp [metaStep] at hm
        | deletedFileMode n => simp [metaStep] at hm
        | binaryFileDiffer u v => simp [metaStep] at hm
        | oldFile u => simp [metaStep] at hm
        | newFile u => simp [metaStep] at hm
        | copyFrom u => simp [metaStep] at hm
        | copyTo u => simp [metaStep] at hm
        | dissimilarity n => simp [metaStep] at hm
        | index u v w => simp [metaStep] at hm

theorem allOk_of_suffix {ts' ts : TokStream} (hsuf : ts' <:+ ts)
    (hok : allOk ts = true) : allOk ts' = true := by
  obtain ⟨pre, rfl⟩ := hsuf
  simp only [allOk, List.all_append, Bool.and_eq_true] at hok
  exact hok.2

theorem parserFinite_of_allOk (ts : TokStream) (hok : allOk ts = true) :
    parserFinite ts := by
  have main : ∀ (n : Nat) (ts : TokStream), ts.length ≤ n → allOk ts = true →
      parserFinite ts := by
    intro n
    induction n with
    | zero =>
      intro ts hlen _
      have hnil : ts = [] := List.length_eq_zero.mp (Nat.le_zero.mp hlen)
      subst hnil
      exact ⟨1, rfl⟩
    | succ n ih =>
      intro ts hlen hok
      cases ts with
      | nil => exact ⟨1, rfl⟩
      | cons x rest =>
        have hprog := parsePatch_progress x rest hok
        have hsuf := parsePatch_suffix (x :: rest)
        cases hpp : parsePatch (x :: rest) with
        | mk res ts' =>
          rw [hpp] at hprog hsuf
          simp only at hprog hsuf
          obtain ⟨m, hm⟩ := ih ts'
            (by simp only [List.length_cons] at hprog hlen; omega)
            (allOk_of_suffix hsuf hok)
          refine ⟨m + 1, ?_⟩
          simp only [parserStateN, parserNext, hpp]
          exact hm
  exact main ts.length ts le_rfl hok

theorem badTok_step : parsePatch badTok = (.error (.parse "Unexpected line: `?`"), badTok) := by
  decide

theorem badTok_stuck : ∀ n, parserStateN n badTok = some badTok := by
  intro n
  induction n with
  | zero => rfl
  | succ n ih =>
    have hstep : parserNext badTok
        = some (.error (.parse "Unexpected line: `?`"), badTok) := by
      rw [show parserNext badTok = some (parsePatch badTok) from rfl, badTok_step]
    simp only [parserStateN, hstep]
    exact ih

/-- C7, counterexample: on the input `"?"` the lexer yields a single lexing
error; the parser surfaces it as an `Err` element but never consumes it (the
error is only peeked at), so the iterator repeats that element forever and
`next()` never returns `None` — the sequence is not finite. -/
theorem C7_parser_not_finite_cex : ¬ parserFinite (tokenize "?") := by
  intro hfin
  obtain ⟨n, hn⟩ := hfin
  have ht : tokenize "?" = badTok := by decide
  rw [ht, badTok_stuck n] at hn
  cases hn

/-- C7 (amended): the parser-iterator sequence is finite for every token
stream free of lexing errors; a lexing error surfaces as the corresponding
`Err` element of the sequence, but the erroneous token is never consumed, so
iteration repeats that `Err` forever instead of reaching `None` (shown on
the input `"?"`, whose stream state never changes). -/
theorem C7_parser_iteration_amended :
    (∀ ts : TokStream, allOk ts = true → parserFinite ts)
      ∧ parserNext (tokenize "?")
        = some (.error (.parse "Unexpected line: `?`"), tokenize "?")
      ∧ (∀ n, parserStateN n (tokenize "?") = some (tokenize "?")) := by
  refine ⟨fun ts hok => parserFinite_of_allOk ts hok, by decide, ?_⟩
  intro n
  have ht : tokenize "?" = badTok := by decide
  rw [ht]
  exact badTok_stuck n

/-- Witness for C7: the error-free stream of the input `"+a"` is finite. -/
theorem C7_parser_iteration_amended_witness :
    allOk (tokenize "+a") = true ∧ parserFinite (tokenize "+a") :=
  ⟨by decide, C7_parser_iteration_amended.1 (tokenize "+a") (by decide)⟩

end GitApply
